import Mathlib

/-!
# ctfhunter: shallow embedding of `ctfhunter.c`

Conventions of the embedding.

* A byte is a natural number; a buffer or a file content is a `List Nat`.
* A C string is represented by the list of its bytes before the terminating
  NUL, so `strlen` is `List.length` and reading the byte at the end of the
  list yields `0`.
* The standard output is a list of `Event`s, one per `printf` call.
* `fread` on a stream returns the next `min count remaining` bytes (I/O errors
  in the middle of a file are not modelled).
* `malloc` may fail (`none`) or return a block whose initial contents are
  arbitrary, given by a function from the index to the byte found there.
* Loops whose termination depends on the data take an explicit `fuel`; a run
  that exhausts it is reported as such (`none`, or `done = false`).
-/

namespace CtfHunter

/-! ## Case folding -/

/-- The function `tolower` of the C locale on a byte value. -/
def tolower (c : Nat) : Nat :=
  if 65 ≤ c ∧ c ≤ 90 then c + 32 else c

/-- Transcription of `str_icmp` (lines 38-47): compare two C strings after
lower-casing; the byte read past the end of a list is the terminator `0`. -/
def str_icmp : List Nat → List Nat → Int
  | a :: as, b :: bs =>
    if tolower a ≠ tolower b then (tolower a : Int) - (tolower b : Int)
    else str_icmp as bs
  | as, bs => (tolower (as.headD 0) : Int) - (tolower (bs.headD 0) : Int)

/-- Transcription of `str_dup_lower` (lines 52-60): `alloc_ok` tells whether
`malloc(len + 1)` succeeds; on success every byte of `s` is copied
lower-cased. -/
def str_dup_lower (alloc_ok : Bool) (s : List Nat) : Option (List Nat) :=
  if alloc_ok then some (s.map tolower) else none

/-! ## Memory and stream primitives -/

/-- Outcome of `malloc(size)`: `none` when the allocation fails, otherwise a
block of `size` bytes whose initial contents are given by `g`. -/
def malloc (size : Nat) (m : Option (Nat → Nat)) : Option (List Nat) :=
  m.map fun g => (List.range size).map g

/-- Store the bytes `data` into `buf` starting at offset `off`. -/
def write_at (buf : List Nat) (off : Nat) (data : List Nat) : List Nat :=
  buf.take off ++ data ++ buf.drop (off + data.length)

/-- The call `memset(buf, 0, n)`. -/
def memset_zero (buf : List Nat) (n : Nat) : List Nat :=
  write_at buf 0 (List.replicate n 0)

/-- The call `memmove(buf, buf + src, n)`. -/
def memmove_front (buf : List Nat) (src n : Nat) : List Nat :=
  write_at buf 0 ((buf.drop src).take n)

/-- The call `fread(dst, 1, count, f)` on a stream with `f` still unread:
the bytes delivered and the rest of the stream. -/
def fread (count : Nat) (f : List Nat) : List Nat × List Nat :=
  (f.take count, f.drop count)

/-- The test `memcmp(a, b, n) == 0`. -/
def memcmp_eq (a b : List Nat) (n : Nat) : Bool :=
  a.take n == b.take n

/-! ## The streaming scanner -/

/-- What a run of `file_contains_string` did: the value returned, the value
returned by each `fread` call in order, and how many `memcmp` calls were
made. -/
structure ScanResult where
  found : Nat
  reads : List Nat
  compares : Nat
deriving DecidableEq, Repr

/-- The inner loop (lines 127-132): the first index `i` with
`i + nlen <= total` at which `memcmp(lbuf + i, needle_lc, nlen) == 0`. -/
def search_hit (lbuf needle_lc : List Nat) (total : Nat) : Option Nat :=
  (List.range (total + 1 - needle_lc.length)).find?
    fun i => memcmp_eq (lbuf.drop i) needle_lc needle_lc.length

/-- The inner loop (lines 127-132) as the pair of the new value of `found`
and the number of `memcmp` calls it made. -/
def search (lbuf needle_lc : List Nat) (total : Nat) : Nat × Nat :=
  match search_hit lbuf needle_lc total with
  | some i => (1, i + 1)
  | none => (0, total + 1 - needle_lc.length)

/-- The `while (!found)` loop of `file_contains_string` (lines 117-141), with
`bufsize` the chunk size, `f` the unread part of the file and `buf`, `lbuf`
the two window buffers. -/
def scan_loop (bufsize : Nat) (needle_lc : List Nat) :
    Nat → List Nat → List Nat → List Nat → Option ScanResult
  | 0, _, _, _ => none
  | fuel + 1, f, buf, lbuf =>
    let nlen := needle_lc.length
    let overlap := nlen - 1
    let chunk := (fread bufsize f).1
    let n := chunk.length
    if n = 0 then some ⟨0, [0], 0⟩
    else
      let buf1 := write_at buf overlap chunk
      let total := overlap + n
      let lbuf1 := write_at lbuf 0 ((buf1.take total).map tolower)
      let s := search lbuf1 needle_lc total
      if s.1 = 0 ∧ n = bufsize then
        let buf2 := memmove_front buf1 (total - overlap) overlap
        let lbuf2 := memmove_front lbuf1 (total - overlap) overlap
        (scan_loop bufsize needle_lc fuel (fread bufsize f).2 buf2 lbuf2).map
          fun r => ⟨r.found, n :: r.reads, s.2 + r.compares⟩
      else some ⟨s.1, [n], s.2⟩

/-- Transcription of `file_contains_string` (lines 96-147) with the chunk
size `bufsize` as a parameter. `f` is the outcome of `fopen` (`none` when the
file cannot be opened), `m1` and `m2` the outcomes of the two `malloc`
calls. -/
def file_contains_string_run (bufsize : Nat) (m1 m2 : Option (Nat → Nat))
    (f : Option (List Nat)) (needle_lc : List Nat) : Option ScanResult :=
  match f with
  | none => some ⟨0, [], 0⟩
  | some file =>
    let nlen := needle_lc.length
    if nlen = 0 then some ⟨1, [], 0⟩
    else
      let overlap := nlen - 1
      match malloc (bufsize + nlen) m1, malloc (bufsize + nlen) m2 with
      | some buf, some lbuf =>
        scan_loop bufsize needle_lc (file.length + 1) file
          (memset_zero buf overlap) (memset_zero lbuf overlap)
      | _, _ => some ⟨0, [], 0⟩

/-- The value returned by `file_contains_string` for chunk size `bufsize`. -/
def file_contains_string_chunked (bufsize : Nat) (m1 m2 : Option (Nat → Nat))
    (f : Option (List Nat)) (needle_lc : List Nat) : Option Nat :=
  (file_contains_string_run bufsize m1 m2 f needle_lc).map ScanResult.found

/-- The function `file_contains_string` of the source: chunk size 65536
(line 104). -/
def file_contains_string (m1 m2 : Option (Nat → Nat))
    (f : Option (List Nat)) (needle_lc : List Nat) : Option Nat :=
  file_contains_string_chunked 65536 m1 m2 f needle_lc


/-! ## Standard output -/

/-- One event per `printf`/`fprintf` call of the program, with the values of
its `%s` arguments. -/
inductive Event where
  /-- The usage text on the error stream (lines 256-261). -/
  | usage (prog : List Nat)
  /-- The line `Memory allocation failed.` on the error stream (line 270). -/
  | alloc_failed
  /-- The opening banner (lines 274-278). -/
  | banner (start_dir search_string : List Nat)
  /-- The line `[FLAG FILE FOUND] path`. -/
  | flag_file_found (path : List Nat)
  /-- The line `  [!] Could not open file for reading.` -/
  | could_not_open
  /-- The line `  --- Contents of path ---`. -/
  | contents_header (path : List Nat)
  /-- The bytes written by one `printf("%s", buf)`. -/
  | contents_chunk (bytes : List Nat)
  /-- A newline and the line `  --- End of file ---`. -/
  | end_of_file
  /-- The line `[STRING MATCH]   path`. -/
  | string_match (path : List Nat)
  /-- The closing banner `=== Done ===` (line 284). -/
  | done_banner
deriving DecidableEq, Repr

/-- The output of a piece of the program and whether it ran to its end
(`done = false`: the fuel ran out before it returned). -/
structure Run where
  out : List Event
  done : Bool
deriving DecidableEq, Repr

/-- A step that prints `es` and returns. -/
def Run.emit (es : List Event) : Run := ⟨es, true⟩

/-- Sequential composition: `k` runs only if `r` returned. -/
def Run.andThen (r k : Run) : Run :=
  if r.done then ⟨r.out ++ k.out, k.done⟩ else r

/-! ## Printing a file -/

/-- The loop of `print_file_contents` (lines 83-86): read up to
`sizeof(buf) - 1 = 1023` bytes, terminate them with NUL and print them with
`printf("%s", buf)`, which writes the bytes before the first NUL. -/
def print_loop : Nat → List Nat → Run
  | 0, _ => ⟨[], false⟩
  | fuel + 1, f =>
    let chunk := (fread 1023 f).1
    if chunk.length > 0 then
      (Run.emit [Event.contents_chunk (chunk.takeWhile fun b => b ≠ 0)]).andThen
        (print_loop fuel (fread 1023 f).2)
    else Run.emit []

/-- Transcription of `print_file_contents` (lines 73-89); `f` is the outcome
of `fopen`. -/
def print_file_contents (f : Option (List Nat)) (path : List Nat) : Run :=
  match f with
  | none => Run.emit [Event.could_not_open]
  | some file =>
    (Run.emit [Event.contents_header path]).andThen
      ((print_loop (file.length + 1) file).andThen (Run.emit [Event.end_of_file]))

/-- The bytes of the file contents that a list of events writes. -/
def printed_contents : List Event → List Nat
  | [] => []
  | Event.contents_chunk bs :: es => bs ++ printed_contents es
  | _ :: es => printed_contents es

/-! ## Target file names -/

/-- The bytes of a string literal. -/
def bytes (s : String) : List Nat := s.toList.map Char.toNat

/-- The table `TARGET_NAMES` (lines 152-154), without its `NULL` sentinel. -/
def TARGET_NAMES : List (List Nat) :=
  [bytes "flag.txt", bytes "root.txt", bytes "user.txt", bytes "proof.txt"]

/-- The loop of `is_target_file` over the rest of the table. -/
def is_target_in (name : List Nat) : List (List Nat) → Nat
  | [] => 0
  | t :: ts => if str_icmp name t = 0 then 1 else is_target_in name ts

/-- Transcription of `is_target_file` (lines 156-162). -/
def is_target_file (name : List Nat) : Nat := is_target_in name TARGET_NAMES

/-! ## The directory walker

The POSIX variant of `walk` (lines 210-245) is the one transcribed. -/

/-- The constant `MAX_PATH_LEN` (line 32). -/
def MAX_PATH_LEN : Nat := 4096

/-- The constant `PATH_SEP` (line 31), the byte `/`. -/
def PATH_SEP : Nat := 47

/-- Transcription of `build_path` (lines 65-68): `snprintf` stores at most
`MAX_PATH_LEN - 1` bytes of `parent/child` and silently drops the rest. -/
def build_path (parent child : List Nat) : List Nat :=
  (parent ++ PATH_SEP :: child).take (MAX_PATH_LEN - 1)

/-- The file type that `lstat` reports in `st_mode`. -/
inductive FileType where
  | regular
  | directory
  | symlink
  | other
deriving DecidableEq, Repr

/-- The operating system as the program sees it, as functions of the path
string passed to each call:
`opendir`/`readdir` give the entry names of a directory in enumeration order
(`none`: it cannot be opened), `lstat` the type of the entry itself (`none`:
the call fails), `fopen` the bytes of a file (`none`: it cannot be opened),
`malloc_buf` and `malloc_lbuf` the outcomes of the two allocations made while
that file is scanned. -/
structure World where
  opendir : List Nat → Option (List (List Nat))
  lstat : List Nat → Option FileType
  fopen : List Nat → Option (List Nat)
  malloc_buf : List Nat → Option (Nat → Nat)
  malloc_lbuf : List Nat → Option (Nat → Nat)

/-- The content search of the walker (lines 236-240): skipped when the
needle is empty (`needle_lc[0]` is the terminator). -/
def string_check (w : World) (needle_lc full : List Nat) : Run :=
  if needle_lc ≠ [] then
    match file_contains_string (w.malloc_buf full) (w.malloc_lbuf full)
        (w.fopen full) needle_lc with
    | none => ⟨[], false⟩
    | some r => if r ≠ 0 then Run.emit [Event.string_match full] else Run.emit []
  else Run.emit []

/-- The file-name check of the walker (lines 231-234). -/
def flag_check (w : World) (name full : List Nat) : Run :=
  if is_target_file name ≠ 0 then
    (Run.emit [Event.flag_file_found full]).andThen
      (print_file_contents (w.fopen full) full)
  else Run.emit []

/-- The branch of the walker for a regular file (lines 229-241). -/
def visit_file (w : World) (needle_lc name full : List Nat) : Run :=
  (flag_check w name full).andThen (string_check w needle_lc full)

/-- The `readdir` loop of `walk` (lines 216-242) over the entry names still
to come; `recurse` is the recursive call of `walk`. -/
def walk_entries (w : World) (needle_lc : List Nat) (recurse : List Nat → Run)
    (dir : List Nat) : List (List Nat) → Run
  | [] => Run.emit []
  | name :: rest =>
    if name = bytes "." ∨ name = bytes ".." then
      walk_entries w needle_lc recurse dir rest
    else
      let full := build_path dir name
      match w.lstat full with
      | none => walk_entries w needle_lc recurse dir rest
      | some FileType.symlink => walk_entries w needle_lc recurse dir rest
      | some FileType.directory =>
        (recurse full).andThen (walk_entries w needle_lc recurse dir rest)
      | some FileType.regular =>
        (visit_file w needle_lc name full).andThen
          (walk_entries w needle_lc recurse dir rest)
      | some FileType.other => walk_entries w needle_lc recurse dir rest

/-- Transcription of `walk` (lines 210-245); `fuel` bounds the depth of the
recursion. -/
def walk (w : World) (needle_lc : List Nat) : Nat → List Nat → Run
  | 0, _ => ⟨[], false⟩
  | fuel + 1, dir =>
    match w.opendir dir with
    | none => Run.emit []
    | some entries => walk_entries w needle_lc (walk w needle_lc fuel) dir entries

/-! ## The program -/

/-- What a run of `main` produced: the output and the exit code (`none` when
the fuel ran out before `main` returned). -/
structure MainResult where
  out : List Event
  exit_code : Option Int
deriving DecidableEq, Repr

/-- Transcription of `main` (lines 253-286): `argv` holds the `argc`
arguments, `alloc_ok` tells whether the allocation of the lower-cased needle
succeeds. -/
def main (w : World) (alloc_ok : Bool) (fuel : Nat) (argv : List (List Nat)) :
    MainResult :=
  if argv.length < 3 then ⟨[Event.usage (argv.getD 0 [])], some 1⟩
  else
    let start_dir := argv.getD 1 []
    match str_dup_lower alloc_ok (argv.getD 2 []) with
    | none => ⟨[Event.alloc_failed], some 1⟩
    | some needle_lc =>
      let r := walk w needle_lc fuel start_dir
      if r.done then
        ⟨Event.banner start_dir (argv.getD 2 []) :: r.out ++ [Event.done_banner], some 0⟩
      else ⟨Event.banner start_dir (argv.getD 2 []) :: r.out, none⟩

/-! ## Vocabulary of the claims -/

/-- Two bytes that are equal or the two cases of one ASCII letter. -/
def same_letter (a b : Nat) : Bool :=
  a = b || (65 ≤ a && a ≤ 90 && b = a + 32) || (65 ≤ b && b ≤ 90 && a = b + 32)

/-- Two strings that differ only in the case of ASCII letters. -/
def case_variant : List Nat → List Nat → Bool
  | [], [] => true
  | a :: as, b :: bs => same_letter a b && case_variant as bs
  | _, _ => false


/-- The path that an output line names, if it names one. -/
def Event.report_path : Event → Option (List Nat)
  | Event.flag_file_found p => some p
  | Event.contents_header p => some p
  | Event.string_match p => some p
  | _ => none

/-- The directories that `walk` enters from `root`: `root` itself, and every
entry name read in a directory already entered whose path `lstat` reports as
a real directory. -/
inductive Reached (w : World) (root : List Nat) : List Nat → Prop where
  | root : Reached w root root
  | step (d : List Nat) (entries : List (List Nat)) (name : List Nat) :
      Reached w root d → w.opendir d = some entries → name ∈ entries →
      w.lstat (build_path d name) = some FileType.directory →
      Reached w root (build_path d name)

/-- A small tree: `root/sub/flag.txt` holds `HTB{abc}`, `root/sub/notes.txt`
holds `the flag is HTB{abc} here`, and `root/link` is a symbolic link to
`root/sub`. -/
def scenario : World where
  opendir := fun p =>
    if p = bytes "root" then some [bytes ".", bytes "..", bytes "link", bytes "sub"]
    else if p = bytes "root/sub" ∨ p = bytes "root/link" then
      some [bytes ".", bytes "..", bytes "flag.txt", bytes "notes.txt"]
    else none
  lstat := fun p =>
    if p = bytes "root" ∨ p = bytes "root/sub" then some FileType.directory
    else if p = bytes "root/link" then some FileType.symlink
    else if p = bytes "root/sub/flag.txt" ∨ p = bytes "root/sub/notes.txt" ∨
        p = bytes "root/link/flag.txt" ∨ p = bytes "root/link/notes.txt" then
      some FileType.regular
    else none
  fopen := fun p =>
    if p = bytes "root/sub/flag.txt" ∨ p = bytes "root/link/flag.txt" then
      some (bytes "HTB\x7babc\x7d")
    else if p = bytes "root/sub/notes.txt" ∨ p = bytes "root/link/notes.txt" then
      some (bytes "the flag is HTB\x7babc\x7d here")
    else none
  malloc_buf := fun _ => some fun i => i % 256
  malloc_lbuf := fun _ => some fun _ => 255

/-- A directory whose path is 4090 bytes long: 409 nested directories named
`aaaaaaaaa` below the root of the file system. -/
def deep_dir : List Nat := (List.replicate 409 (bytes "/aaaaaaaaa")).flatten

/-- The directory `deep_dir` holding two regular files, `abcd` and
`abcdefgh`, each containing the needle `htb{`. The path of `abcd` is 4095
bytes long, that of `abcdefgh` 4099 bytes. -/
def deep_world : World where
  opendir := fun p =>
    if p = deep_dir then some [bytes ".", bytes "..", bytes "abcd", bytes "abcdefgh"]
    else none
  lstat := fun p =>
    if p = deep_dir ++ bytes "/abcd" ∨ p = deep_dir ++ bytes "/abcdefgh" then
      some FileType.regular
    else none
  fopen := fun p =>
    if p = deep_dir ++ bytes "/abcd" then some (bytes "htb\x7bone\x7d")
    else if p = deep_dir ++ bytes "/abcdefgh" then some (bytes "htb\x7btwo\x7d")
    else none
  malloc_buf := fun _ => some fun _ => 0
  malloc_lbuf := fun _ => some fun _ => 0





/-! ## Reference search -/

/-- A whole-buffer substring search written from the words of the
specification: try every start offset of `hay` in turn and compare the needle
with the bytes found there. -/
def naive_search (needle : List Nat) : List Nat → Nat
  | [] => if needle = [] then 1 else 0
  | h :: t => if (h :: t).take needle.length = needle then 1 else naive_search needle t


/-! ## The scan loop, iteration by iteration -/

/-- What one iteration of the scan loop did: `head` is `buf[0 .. overlap)`
when `fread` is called, `n` the value `fread` returns, `window` is
`buf[0 .. overlap + n)` after the read, `hit` the value of `found` after the
inner loop, `compares` the number of `memcmp` calls of the inner loop, and
`slide` tells whether the overlap was moved to the front (lines 135-137). -/
structure ScanIter where
  head : List Nat
  n : Nat
  window : List Nat
  hit : Nat
  compares : Nat
  slide : Bool
deriving DecidableEq, Repr

/-- The loop of lines 117-141 once more, this time returning the record of
every iteration that was run instead of the final result. -/
def scan_trace (bufsize : Nat) (needle_lc : List Nat) :
    Nat → List Nat → List Nat → List Nat → List ScanIter
  | 0, _, _, _ => []
  | fuel + 1, f, buf, lbuf =>
    let nlen := needle_lc.length
    let overlap := nlen - 1
    let chunk := (fread bufsize f).1
    let n := chunk.length
    let buf1 := write_at buf overlap chunk
    let total := overlap + n
    if n = 0 then [⟨buf.take overlap, 0, buf1.take total, 0, 0, false⟩]
    else
      let lbuf1 := write_at lbuf 0 ((buf1.take total).map tolower)
      let s := search lbuf1 needle_lc total
      if s.1 = 0 ∧ n = bufsize then
        ⟨buf.take overlap, n, buf1.take total, s.1, s.2, true⟩ ::
          scan_trace bufsize needle_lc fuel (fread bufsize f).2
            (memmove_front buf1 (total - overlap) overlap)
            (memmove_front lbuf1 (total - overlap) overlap)
      else [⟨buf.take overlap, n, buf1.take total, s.1, s.2, false⟩]

/-- The iterations of the scan loop in a call of `file_contains_string`
(none when the function returns before the loop). -/
def file_contains_string_trace (bufsize : Nat) (m1 m2 : Option (Nat → Nat))
    (f : Option (List Nat)) (needle_lc : List Nat) : List ScanIter :=
  match f with
  | none => []
  | some file =>
    let nlen := needle_lc.length
    if nlen = 0 then []
    else
      let overlap := nlen - 1
      match malloc (bufsize + nlen) m1, malloc (bufsize + nlen) m2 with
      | some buf, some lbuf =>
        scan_trace bufsize needle_lc (file.length + 1) file
          (memset_zero buf overlap) (memset_zero lbuf overlap)
      | _, _ => []

/-- The subtraction `a - b` of two `size_t` values of `width` bits, which
wraps around when `a < b`. -/
def size_sub (width a b : Nat) : Nat := (a + 2 ^ width - b) % 2 ^ width

/-- What `file_contains_string` does with its sizes and buffers: the
evaluation of `nlen - 1` (line 105), and reads or writes of the bytes
`[start, start + len)` of one of the two window buffers. -/
inductive Access where
  | overlap_sub (nlen : Nat)
  | bytes (start len : Nat)
deriving DecidableEq, Repr

/-- The buffer bytes touched in one iteration of the scan loop: the `bufsize`
bytes at `buf + overlap` that `fread` may fill (line 118); when bytes were
read, the folding loop over `[0, total)` of both buffers (lines 123-124) and
one `memcmp` of `nlen` bytes at `lbuf + i` per comparison (line 128); and for
a slide the source and destination of the two `memmove` calls (lines
136-137). -/
def iter_accesses (bufsize nlen : Nat) (it : ScanIter) : List Access :=
  let overlap := nlen - 1
  let total := overlap + it.n
  Access.bytes overlap bufsize ::
    (if it.n = 0 then []
     else
       [Access.bytes 0 total, Access.bytes 0 total] ++
         (List.range it.compares).map (fun i => Access.bytes i nlen) ++
         (if it.slide then
            [Access.bytes (total - overlap) overlap, Access.bytes 0 overlap,
              Access.bytes (total - overlap) overlap, Access.bytes 0 overlap]
          else []))

/-- The size computation and the buffer accesses of a call of
`file_contains_string`: nothing before the needle length is known to be
positive, then `nlen - 1`, the two `memset` calls (lines 112-113) and the
iterations of the loop. -/
def file_contains_string_accesses (bufsize : Nat) (m1 m2 : Option (Nat → Nat))
    (f : Option (List Nat)) (needle_lc : List Nat) : List Access :=
  match f with
  | none => []
  | some _ =>
    let nlen := needle_lc.length
    if nlen = 0 then []
    else
      let overlap := nlen - 1
      Access.overlap_sub nlen ::
        (match malloc (bufsize + nlen) m1, malloc (bufsize + nlen) m2 with
         | some _, some _ =>
           [Access.bytes 0 overlap, Access.bytes 0 overlap] ++
             (file_contains_string_trace bufsize m1 m2 f needle_lc).flatMap
               (iter_accesses bufsize nlen)
         | _, _ => [])

/-- The fields of the record of one iteration, given the state in which the
iteration starts: `P` is the overlap area of the raw buffer and `f` the unread
part of the file. -/
structure IterOK (bufsize : Nat) (needle P f : List Nat) (it : ScanIter) : Prop where
  head_eq : it.head = P
  n_eq : it.n = min bufsize f.length
  window_eq : it.window = P ++ f.take bufsize
  hit_cases : it.hit = 0 ∨ it.hit = 1
  hit_iff : it.hit = 1 ↔ needle <:+: it.window.map tolower
  compares_bound : ∀ i, i < it.compares → i + needle.length ≤ (needle.length - 1) + it.n
  compares_miss : it.hit = 0 → it.compares = it.n
  slide_iff : it.slide = true ↔ (it.hit = 0 ∧ it.n = bufsize ∧ it.n ≠ 0)


theorem occurs_iff_at (needle W : List Nat) :
    needle <:+: W ↔
      ∃ i, i + needle.length ≤ W.length ∧ (W.drop i).take needle.length = needle := by
  constructor
  · rintro ⟨s, t, rfl⟩
    refine ⟨s.length, by simp, ?_⟩
    simp [List.append_assoc]
  · rintro ⟨i, _, h⟩
    refine ⟨W.take i, (W.drop i).drop needle.length, ?_⟩
    have h2 : needle ++ (W.drop i).drop needle.length = W.drop i := by
      conv_lhs => lhs; rw [← h]
      exact List.take_append_drop _ _
    rw [List.append_assoc, h2, List.take_append_drop]

theorem occurs_append_right {needle A : List Nat} (B : List Nat) (h : needle <:+: A) :
    needle <:+: A ++ B := by
  obtain ⟨s, t, rfl⟩ := h
  exact ⟨s, t ++ B, by simp [List.append_assoc]⟩

theorem occurs_append_left {needle B : List Nat} (A : List Nat) (h : needle <:+: B) :
    needle <:+: A ++ B := by
  obtain ⟨s, t, rfl⟩ := h
  exact ⟨A ++ s, t, by simp [List.append_assoc]⟩

theorem not_occurs_of_short {needle W : List Nat} (h : W.length < needle.length) :
    ¬ needle <:+: W := by
  rintro ⟨s, t, rfl⟩
  simp at h
  omega

/-- An occurrence in `A ++ B` lies in `A` or in the last `len - 1` bytes of
`A` followed by `B`. -/
theorem occurs_overlap_split (needle A B : List Nat) (k : Nat) (hn : needle ≠ [])
    (hk : k + (needle.length - 1) = A.length) :
    needle <:+: (A ++ B) ↔ needle <:+: A ∨ needle <:+: (A.drop k ++ B) := by
  have hpos : 0 < needle.length := List.length_pos.mpr hn
  constructor
  · intro h
    rw [occurs_iff_at] at h
    obtain ⟨i, hi, h⟩ := h
    by_cases hc : i + needle.length ≤ A.length
    · left
      rw [occurs_iff_at]
      refine ⟨i, hc, ?_⟩
      rw [List.drop_append_of_le_length (by omega)] at h
      rw [List.take_append_of_le_length (by simp; omega)] at h
      exact h
    · right
      rw [occurs_iff_at]
      refine ⟨i - k, ?_, ?_⟩
      · simp at hi ⊢; omega
      · rw [← List.drop_append_of_le_length (by omega), List.drop_drop]
        rw [show k + (i - k) = i by omega]
        exact h
  · rintro (h | h)
    · exact occurs_append_right B h
    · have h3 : A ++ B = A.take k ++ (A.drop k ++ B) := by
        rw [← List.append_assoc, List.take_append_drop]
      rw [h3]
      exact occurs_append_left _ h

/-! ## The inner search loop -/

theorem search_fst_cases (lbuf needle : List Nat) (total : Nat) :
    (search lbuf needle total).1 = 0 ∨ (search lbuf needle total).1 = 1 := by
  unfold search
  cases search_hit lbuf needle total <;> simp

theorem search_fst_iff (lbuf needle : List Nat) (total : Nat) :
    (search lbuf needle total).1 = 1 ↔
      ∃ i, i + needle.length ≤ total ∧
        memcmp_eq (lbuf.drop i) needle needle.length = true := by
  unfold search
  cases h : search_hit lbuf needle total with
  | none =>
    simp only [search_hit, List.find?_eq_none, List.mem_range] at h
    simp only [zero_ne_one, false_iff, not_exists, not_and]
    intro i hi
    exact h i (by omega)
  | some i =>
    simp only [search_hit] at h
    have h1 := List.find?_some h
    have h2 := List.mem_of_find?_eq_some h
    simp only [List.mem_range] at h2
    simp only [true_iff]
    exact ⟨i, by omega, h1⟩

/-- Searching the window `W` stored at the front of the folded buffer finds
the needle exactly when it occurs in `W`. -/
theorem search_window_iff (lbuf needle W : List Nat) :
    (search (write_at lbuf 0 W) needle W.length).1 = 1 ↔ needle <:+: W := by
  rw [search_fst_iff, occurs_iff_at]
  have key : ∀ i, i + needle.length ≤ W.length →
      (memcmp_eq ((write_at lbuf 0 W).drop i) needle needle.length = true ↔
        (W.drop i).take needle.length = needle) := by
    intro i hi
    unfold memcmp_eq write_at
    simp only [List.take_zero, List.nil_append, Nat.zero_add, beq_iff_eq, List.take_length]
    rw [List.drop_append_of_le_length (by omega),
      List.take_append_of_le_length (by simp; omega)]
  constructor
  · rintro ⟨i, hi, h⟩
    exact ⟨i, hi, (key i hi).mp h⟩
  · rintro ⟨i, hi, h⟩
    exact ⟨i, hi, (key i hi).mpr h⟩

theorem take_write_at (buf chunk : List Nat) (off : Nat) (h : off ≤ buf.length) :
    (write_at buf off chunk).take (off + chunk.length) = buf.take off ++ chunk := by
  unfold write_at
  rw [List.take_append_of_le_length (by simp; omega)]
  rw [List.take_of_length_le (by simp)]


theorem length_write_at (buf chunk : List Nat) (off : Nat) (h : off ≤ buf.length) :
    off + chunk.length ≤ (write_at buf off chunk).length := by
  unfold write_at
  simp
  omega

theorem memmove_front_spec (buf : List Nat) (src n : Nat) (h : src + n ≤ buf.length) :
    (memmove_front buf src n).take n = (buf.take (src + n)).drop src ∧
      n ≤ (memmove_front buf src n).length := by
  have hlen : ((buf.drop src).take n).length = n := by simp; omega
  unfold memmove_front write_at
  simp only [List.take_zero, List.nil_append, Nat.zero_add]
  constructor
  · rw [List.take_append_of_le_length (by omega), List.take_of_length_le (by omega),
      List.drop_take]
    simp
  · simp only [List.length_append]
    omega

theorem map_tolower_occurs_short (needle P : List Nat) (h : P.length < needle.length) :
    ¬ needle <:+: P.map tolower :=
  not_occurs_of_short (by simpa using h)

/-- The scan loop returns, and it reports a match exactly when the needle
occurs in the lower-cased bytes made of the overlap area of the raw buffer
followed by the unread part of the file. -/
theorem scan_loop_spec (bufsize : Nat) (needle : List Nat) (hc : 1 ≤ bufsize)
    (hn : needle ≠ []) :
    ∀ (fuel : Nat) (f buf lbuf : List Nat), f.length < fuel →
      needle.length - 1 ≤ buf.length →
      ∃ r, scan_loop bufsize needle fuel f buf lbuf = some r ∧
        (r.found = 0 ∨ r.found = 1) ∧
        (r.found = 1 ↔
          needle <:+: (buf.take (needle.length - 1) ++ f).map tolower) := by
  have hpos : 0 < needle.length := List.length_pos.mpr hn
  intro fuel
  induction fuel with
  | zero => intro f _ _ h; omega
  | succ fuel ih =>
    intro f buf lbuf hf hbuf
    rw [scan_loop]
    simp only [fread]
    by_cases h0 : (f.take bufsize).length = 0
    · -- end of file: nothing read
      have hnil : f = [] := by
        rcases f with _ | ⟨x, xs⟩
        · rfl
        · simp at h0; omega
      subst hnil
      refine ⟨⟨0, [0], 0⟩, by simp, Or.inl rfl, ?_⟩
      simp only [zero_ne_one, List.append_nil, false_iff]
      exact map_tolower_occurs_short _ _ (by simp; omega)
    · rw [if_neg h0]
      have hwin : (write_at buf (needle.length - 1) (f.take bufsize)).take
          (needle.length - 1 + (f.take bufsize).length) =
          buf.take (needle.length - 1) ++ f.take bufsize :=
        take_write_at _ _ _ hbuf
      rw [hwin]
      set W := (buf.take (needle.length - 1) ++ f.take bufsize).map tolower with hW
      have hWlen : W.length = needle.length - 1 + (f.take bufsize).length := by
        simp [hW]; omega
      rw [← hWlen]
      have hsearch := search_window_iff lbuf needle W
      have hcases := search_fst_cases (write_at lbuf 0 W) needle W.length
      have hsplit : (buf.take (needle.length - 1) ++ f).map tolower =
          W ++ (f.drop bufsize).map tolower := by
        rw [hW, ← List.map_append, List.append_assoc, List.take_append_drop]
      by_cases hcont : (search (write_at lbuf 0 W) needle W.length).1 = 0 ∧
          (f.take bufsize).length = bufsize
      · rw [if_pos hcont]
        obtain ⟨hs0, hfull⟩ := hcont
        have hsrc : W.length - (needle.length - 1) = (f.take bufsize).length := by omega
        rw [hsrc]
        have hb1 := length_write_at buf (f.take bufsize) (needle.length - 1) hbuf
        have hmm := memmove_front_spec (write_at buf (needle.length - 1) (f.take bufsize))
          (f.take bufsize).length (needle.length - 1) (by omega)
        have hflen : (f.drop bufsize).length < fuel := by
          have : 0 < (f.take bufsize).length := Nat.pos_of_ne_zero h0
          simp only [List.length_take, List.length_drop] at this ⊢
          omega
        obtain ⟨r, hr, hr01, hriff⟩ := ih (f.drop bufsize)
          (memmove_front (write_at buf (needle.length - 1) (f.take bufsize))
            (f.take bufsize).length (needle.length - 1))
          (memmove_front (write_at lbuf 0 W) (f.take bufsize).length (needle.length - 1))
          hflen hmm.2
        rw [hr]
        refine ⟨_, rfl, hr01, ?_⟩
        simp only
        rw [hriff, hmm.1, Nat.add_comm (f.take bufsize).length, hwin, hsplit,
          List.map_append, List.map_drop, ← hW]
        rw [occurs_overlap_split needle W _ (f.take bufsize).length hn (by omega)]
        constructor
        · exact Or.inr
        · rintro (h | h)
          · exact absurd (hsearch.mpr h) (by omega)
          · exact h
      · rw [if_neg hcont]
        refine ⟨_, rfl, hcases, ?_⟩
        simp only
        rw [hsearch, hsplit]
        constructor
        · exact occurs_append_right _
        · intro hocc
          rcases hcases with h1 | h1
          · have hshort : (f.take bufsize).length ≠ bufsize := fun h => hcont ⟨h1, h⟩
            have hdrop : f.drop bufsize = [] := by
              apply List.drop_eq_nil_of_le
              simp at hshort
              omega
            simpa [hdrop] using hocc
          · exact hsearch.mp h1


theorem occurs_zero_pad (needle X : List Nat) (k : Nat) (hn : needle ≠ [])
    (h0 : 0 ∉ needle) :
    needle <:+: List.replicate k 0 ++ X ↔ needle <:+: X := by
  induction k with
  | zero => simp
  | succ k ih =>
    rw [List.replicate_succ, List.cons_append, List.infix_cons_iff, ih]
    constructor
    · rintro (h | h)
      · exfalso
        rcases needle with _ | ⟨a, t⟩
        · exact hn rfl
        · have ha : a = 0 := (List.cons_prefix_cons.mp h).1
          exact h0 (by simp [ha])
      · exact h
    · exact Or.inr

/-- The run of the scanner on an openable file with both allocations
succeeding: it returns, with `found` the verdict of a search for the needle in
the lower-cased file preceded by `len - 1` zero bytes. -/
theorem run_spec (bufsize : Nat) (g1 g2 : Nat → Nat) (F needle : List Nat)
    (hc : 1 ≤ bufsize) (hn : needle ≠ []) :
    ∃ r, file_contains_string_run bufsize (some g1) (some g2) (some F) needle = some r ∧
      (r.found = 0 ∨ r.found = 1) ∧
      (r.found = 1 ↔
        needle <:+: List.replicate (needle.length - 1) 0 ++ F.map tolower) := by
  have hpos : 0 < needle.length := List.length_pos.mpr hn
  unfold file_contains_string_run
  simp only [malloc, Option.map_some']
  rw [if_neg (by omega)]
  have hlen : needle.length - 1 ≤
      (memset_zero ((List.range (bufsize + needle.length)).map g1)
        (needle.length - 1)).length := by
    simp [memset_zero, write_at]
  obtain ⟨r, hr, hr01, hriff⟩ := scan_loop_spec bufsize needle hc hn (F.length + 1) F
    (memset_zero ((List.range (bufsize + needle.length)).map g1) (needle.length - 1))
    (memset_zero ((List.range (bufsize + needle.length)).map g2) (needle.length - 1))
    (by omega) hlen
  refine ⟨r, hr, hr01, ?_⟩
  rw [hriff]
  have htake : (memset_zero ((List.range (bufsize + needle.length)).map g1)
      (needle.length - 1)).take (needle.length - 1) =
      List.replicate (needle.length - 1) 0 := by
    simp [memset_zero, write_at, List.take_append_of_le_length]
  have hz : ∀ k : Nat, (List.replicate k 0).map tolower = List.replicate k 0 := by
    intro k
    simp [tolower]
  rw [htake, List.map_append, hz]


/-- The value returned for an openable file when both allocations succeed. -/
theorem chunked_padded (bufsize : Nat) (g1 g2 : Nat → Nat) (F needle : List Nat)
    (hc : 1 ≤ bufsize) (hn : needle ≠ []) :
    file_contains_string_chunked bufsize (some g1) (some g2) (some F) needle =
      some (if needle <:+: List.replicate (needle.length - 1) 0 ++ F.map tolower
        then 1 else 0) := by
  obtain ⟨r, hr, hr01, hriff⟩ := run_spec bufsize g1 g2 F needle hc hn
  unfold file_contains_string_chunked
  rw [hr, Option.map_some']
  by_cases h : needle <:+: List.replicate (needle.length - 1) 0 ++ F.map tolower
  · rw [if_pos h, hriff.mpr h]
  · rw [if_neg h]
    rcases hr01 with h0 | h1
    · rw [h0]
    · exact absurd (hriff.mp h1) h

/-- For a NUL-free needle the scanner is a whole-file substring search in the
lower-cased file. -/
theorem chunked_eq_search (bufsize : Nat) (g1 g2 : Nat → Nat) (F needle : List Nat)
    (hc : 1 ≤ bufsize) (hn : needle ≠ []) (h0 : 0 ∉ needle) :
    file_contains_string_chunked bufsize (some g1) (some g2) (some F) needle =
      some (if needle <:+: F.map tolower then 1 else 0) := by
  rw [chunked_padded bufsize g1 g2 F needle hc hn]
  simp only [occurs_zero_pad needle (F.map tolower) _ hn h0]

/-- Without a match in the lower-cased file the scanner returns 0, whatever
the chunk size and the outcome of the allocations. -/
theorem chunked_no_occurrence (bufsize : Nat) (m1 m2 : Option (Nat → Nat))
    (F needle : List Nat) (hn : needle ≠ []) (h0 : 0 ∉ needle)
    (hno : ¬ needle <:+: F.map tolower) :
    file_contains_string_chunked bufsize m1 m2 (some F) needle = some 0 := by
  have hlen : needle.length ≠ 0 := by
    intro h
    exact hn (List.length_eq_zero.mp h)
  cases m1 with
  | none => simp [file_contains_string_chunked, file_contains_string_run, malloc, hlen]
  | some g1 =>
    cases m2 with
    | none => simp [file_contains_string_chunked, file_contains_string_run, malloc, hlen]
    | some g2 =>
      by_cases hc : 1 ≤ bufsize
      · rw [chunked_eq_search bufsize g1 g2 F needle hc hn h0, if_neg hno]
      · have hz : bufsize = 0 := by omega
        subst hz
        simp [file_contains_string_chunked, file_contains_string_run, malloc, hlen,
          scan_loop, fread]

/-! ## Claims on the scanner -/

/-- C1 (completeness of the scanner). For every chunk size `>= 1`, every file
content `F` and every non-empty needle `N`: if the lower-cased `N` occurs as a
contiguous byte sequence anywhere in the lower-cased `F`, then
`file_contains_string(F, str_dup_lower(N))` returns 1, both for the chunk size
given and for the chunk size 65536 of the source. -/
theorem scanner_complete (chunk_size : Nat) (g1 g2 : Nat → Nat) (F N : List Nat)
    (hc : 1 ≤ chunk_size) (hN : N ≠ [])
    (hocc : N.map tolower <:+: F.map tolower) :
    (str_dup_lower true N).bind
        (file_contains_string_chunked chunk_size (some g1) (some g2) (some F)) = some 1 ∧
      (str_dup_lower true N).bind
        (file_contains_string (some g1) (some g2) (some F)) = some 1 := by
  have hn : N.map tolower ≠ [] := by simpa using hN
  have hpad : N.map tolower <:+:
      List.replicate ((N.map tolower).length - 1) 0 ++ F.map tolower :=
    occurs_append_left _ hocc
  simp only [str_dup_lower, if_true, Option.some_bind, file_contains_string]
  rw [chunked_padded chunk_size g1 g2 F _ hc hn, chunked_padded 65536 g1 g2 F _ (by omega) hn,
    if_pos hpad]
  exact ⟨rfl, rfl⟩

/-- Witness of C1: the file is the needle twice and the chunk size is the
length of the needle. -/
theorem scanner_complete_witness :
    1 ≤ 3 ∧ bytes "HTB" ≠ [] ∧
      (bytes "HTB").map tolower <:+: (bytes "htbHtB").map tolower ∧
      (str_dup_lower true (bytes "HTB")).bind
        (file_contains_string_chunked 3 (some fun _ => 7) (some fun _ => 9)
          (some (bytes "htbHtB"))) = some 1 ∧
      (str_dup_lower true (bytes "HTB")).bind
        (file_contains_string (some fun _ => 7) (some fun _ => 9)
          (some (bytes "htbHtB"))) = some 1 :=
  ⟨by decide, by decide, by decide,
    scanner_complete 3 (fun _ => 7) (fun _ => 9) (bytes "htbHtB") (bytes "HTB")
      (by decide) (by decide) (by decide)⟩

/-- C2 (soundness of the scanner). For every file content `F` and every
non-empty NUL-free needle `N` that does not occur in the lower-cased `F`,
`file_contains_string(F, N)` returns 0, for the chunk size 65536 of the source
and for every other chunk size, whether or not the window buffers can be
allocated; the zero padding of the first window does not produce a match. -/
theorem scanner_sound (chunk_size : Nat) (m1 m2 : Option (Nat → Nat)) (F N : List Nat)
    (hN : N ≠ []) (h0 : 0 ∉ N) (hno : ¬ N <:+: F.map tolower) :
    file_contains_string m1 m2 (some F) N = some 0 ∧
      file_contains_string_chunked chunk_size m1 m2 (some F) N = some 0 :=
  ⟨chunked_no_occurrence 65536 m1 m2 F N hN h0 hno,
    chunked_no_occurrence chunk_size m1 m2 F N hN h0 hno⟩

/-- Witness of C2: the needle `tb{` is absent from a file that ends in `tb`. -/
theorem scanner_sound_witness :
    bytes "tb\x7b" ≠ [] ∧ 0 ∉ bytes "tb\x7b" ∧
      ¬ bytes "tb\x7b" <:+: (bytes "HTB").map tolower ∧
      file_contains_string (some fun _ => 0) (some fun _ => 0)
        (some (bytes "HTB")) (bytes "tb\x7b") = some 0 ∧
      file_contains_string_chunked 2 (some fun _ => 0) (some fun _ => 0)
        (some (bytes "HTB")) (bytes "tb\x7b") = some 0 :=
  ⟨by decide, by decide, by decide,
    scanner_sound 2 (some fun _ => 0) (some fun _ => 0) (bytes "HTB") (bytes "tb\x7b")
      (by decide) (by decide) (by decide)⟩


/-- C4 (empty needle at the scanner). For a file that can be opened, also a
zero-length one, `file_contains_string(F, "")` returns 1 and makes no `fread`
call and no comparison; for a file that cannot be opened it returns 0 whatever
the needle, again without reading. -/
theorem empty_needle_matches :
    (∀ (bufsize : Nat) (m1 m2 : Option (Nat → Nat)) (F : List Nat),
        file_contains_string_run bufsize m1 m2 (some F) [] = some ⟨1, [], 0⟩) ∧
      (∀ (m1 m2 : Option (Nat → Nat)) (F : List Nat),
        file_contains_string m1 m2 (some F) [] = some 1) ∧
      (∀ (bufsize : Nat) (m1 m2 : Option (Nat → Nat)) (needle : List Nat),
        file_contains_string_run bufsize m1 m2 none needle = some ⟨0, [], 0⟩) ∧
      (∀ (m1 m2 : Option (Nat → Nat)) (needle : List Nat),
        file_contains_string m1 m2 none needle = some 0) := by
  refine ⟨?_, ?_, ?_, ?_⟩
  · intro bufsize m1 m2 F
    simp [file_contains_string_run]
  · intro m1 m2 F
    simp [file_contains_string, file_contains_string_chunked, file_contains_string_run]
  · intro bufsize m1 m2 needle
    simp [file_contains_string_run]
  · intro m1 m2 needle
    simp [file_contains_string, file_contains_string_chunked, file_contains_string_run]

theorem tolower_same_letter (a b : Nat) (h : same_letter a b = true) :
    tolower a = tolower b := by
  unfold same_letter at h
  simp only [Bool.or_eq_true, Bool.and_eq_true, decide_eq_true_eq] at h
  unfold tolower
  rcases h with (h | ⟨⟨h1, h2⟩, h3⟩) | ⟨⟨h1, h2⟩, h3⟩
  · rw [h]
  · subst h3
    rw [if_pos ⟨h1, h2⟩, if_neg (by omega)]
  · subst h3
    rw [if_neg (by omega), if_pos ⟨h1, h2⟩]

theorem map_tolower_case_variant :
    ∀ (N N' : List Nat), case_variant N N' = true → N.map tolower = N'.map tolower
  | [], [], _ => rfl
  | [], _ :: _, h => by simp [case_variant] at h
  | _ :: _, [], h => by simp [case_variant] at h
  | a :: as, b :: bs, h => by
    simp only [case_variant, Bool.and_eq_true] at h
    simp only [List.map_cons]
    rw [tolower_same_letter a b h.1, map_tolower_case_variant as bs h.2]

/-- C5 (case invariance). For needles `N` and `N'` that differ only in the
case of ASCII letters, `file_contains_string(F, str_dup_lower(N))` equals
`file_contains_string(F, str_dup_lower(N'))`, for every file, every chunk size
and every outcome of the allocations. -/
theorem scanner_case_invariant (N N' : List Nat) (hv : case_variant N N' = true)
    (bufsize : Nat) (alloc_ok : Bool) (m1 m2 : Option (Nat → Nat))
    (f : Option (List Nat)) :
    (str_dup_lower alloc_ok N).bind (file_contains_string_chunked bufsize m1 m2 f) =
        (str_dup_lower alloc_ok N').bind (file_contains_string_chunked bufsize m1 m2 f) ∧
      (str_dup_lower alloc_ok N).bind (file_contains_string m1 m2 f) =
        (str_dup_lower alloc_ok N').bind (file_contains_string m1 m2 f) := by
  have h : str_dup_lower alloc_ok N = str_dup_lower alloc_ok N' := by
    unfold str_dup_lower
    rw [map_tolower_case_variant N N' hv]
  rw [h]
  exact ⟨rfl, rfl⟩

/-- Witness of C5: the needles `HtB{` and `hTb{`. -/
theorem scanner_case_invariant_witness :
    case_variant (bytes "HtB\x7b") (bytes "hTb\x7b") = true ∧
      (str_dup_lower true (bytes "HtB\x7b")).bind
          (file_contains_string_chunked 4 (some fun _ => 1) (some fun _ => 2)
            (some (bytes "the flag is HTB\x7babc\x7d here"))) =
        (str_dup_lower true (bytes "hTb\x7b")).bind
          (file_contains_string_chunked 4 (some fun _ => 1) (some fun _ => 2)
            (some (bytes "the flag is HTB\x7babc\x7d here"))) ∧
      (str_dup_lower true (bytes "HtB\x7b")).bind
          (file_contains_string (some fun _ => 1) (some fun _ => 2)
            (some (bytes "the flag is HTB\x7babc\x7d here"))) =
        (str_dup_lower true (bytes "hTb\x7b")).bind
          (file_contains_string (some fun _ => 1) (some fun _ => 2)
            (some (bytes "the flag is HTB\x7babc\x7d here"))) :=
  ⟨by decide,
    scanner_case_invariant (bytes "HtB\x7b") (bytes "hTb\x7b") (by decide) 4 true
      (some fun _ => 1) (some fun _ => 2) (some (bytes "the flag is HTB\x7babc\x7d here"))⟩

/-! ## Claims on file names -/

theorem tolower_eq_zero (a : Nat) : tolower a = 0 ↔ a = 0 := by
  unfold tolower
  split <;> omega

theorem str_icmp_eq_zero :
    ∀ (a b : List Nat), 0 ∉ a → 0 ∉ b →
      (str_icmp a b = 0 ↔ a.map tolower = b.map tolower)
  | [], [], _, _ => by simp [str_icmp]
  | [], y :: ys, _, hb => by
    have hy : y ≠ 0 := fun h => hb (by simp [h])
    have hy2 : tolower y ≠ 0 := fun h => hy ((tolower_eq_zero y).mp h)
    simp only [str_icmp, List.headD_nil, List.headD_cons, List.map_nil, List.map_cons]
    constructor
    · intro h
      have h7 : (tolower 0 : Int) = 0 := by simp [tolower]
      rw [h7] at h
      omega
    · intro h
      cases h
  | x :: xs, [], ha, _ => by
    have hx : x ≠ 0 := fun h => ha (by simp [h])
    have hx2 : tolower x ≠ 0 := fun h => hx ((tolower_eq_zero x).mp h)
    simp only [str_icmp, List.headD_nil, List.headD_cons, List.map_nil, List.map_cons]
    constructor
    · intro h
      have h7 : (tolower 0 : Int) = 0 := by simp [tolower]
      rw [h7] at h
      omega
    · intro h
      cases h
  | x :: xs, y :: ys, ha, hb => by
    have hxs : 0 ∉ xs := fun h => ha (List.mem_cons_of_mem _ h)
    have hys : 0 ∉ ys := fun h => hb (List.mem_cons_of_mem _ h)
    rw [str_icmp]
    by_cases h : tolower x = tolower y
    · simp only [h, ne_eq, not_true_eq_false, if_false, List.map_cons, List.cons.injEq,
        true_and]
      exact str_icmp_eq_zero xs ys hxs hys
    · simp only [ne_eq, h, not_false_eq_true, if_true, List.map_cons, List.cons.injEq,
        false_and, iff_false]
      omega

theorem is_target_in_iff (name : List Nat) (h0 : 0 ∉ name) :
    ∀ (ts : List (List Nat)), (∀ t ∈ ts, 0 ∉ t ∧ t.map tolower = t) →
      (is_target_in name ts = 1 ↔ name.map tolower ∈ ts) ∧
        (is_target_in name ts = 0 ∨ is_target_in name ts = 1)
  | [], _ => by simp [is_target_in]
  | t :: ts, h => by
    have ht := h t (List.mem_cons_self _ _)
    have ih := is_target_in_iff name h0 ts (fun u hu => h u (List.mem_cons_of_mem _ hu))
    have hicmp := str_icmp_eq_zero name t h0 ht.1
    rw [ht.2] at hicmp
    rw [is_target_in]
    by_cases hc : str_icmp name t = 0
    · simp [hc, hicmp.mp hc]
    · have hne : name.map tolower ≠ t := fun h => hc (hicmp.mpr h)
      simp only [hc, if_false, List.mem_cons, hne, false_or]
      exact ih

theorem target_names_clean : ∀ t ∈ TARGET_NAMES, 0 ∉ t ∧ t.map tolower = t := by
  decide

/-- C6 (file-name matching). For every entry name (a NUL-free C string),
`is_target_file(name)` returns 1 exactly when the ASCII-lower-cased name is
one of `flag.txt`, `root.txt`, `user.txt`, `proof.txt`, and returns 0
otherwise; in particular a name that only contains a target, or is a proper
part of one, does not match. -/
theorem is_target_file_exact (name : List Nat) (h0 : 0 ∉ name) :
    (is_target_file name = 1 ↔
        name.map tolower ∈
          [bytes "flag.txt", bytes "root.txt", bytes "user.txt", bytes "proof.txt"]) ∧
      (is_target_file name = 0 ∨ is_target_file name = 1) :=
  is_target_in_iff name h0 TARGET_NAMES target_names_clean

/-- Witness of C6: `Flag.Txt` matches. -/
theorem is_target_file_exact_witness :
    0 ∉ bytes "Flag.Txt" ∧
      ((is_target_file (bytes "Flag.Txt") = 1 ↔
          (bytes "Flag.Txt").map tolower ∈
            [bytes "flag.txt", bytes "root.txt", bytes "user.txt", bytes "proof.txt"]) ∧
        (is_target_file (bytes "Flag.Txt") = 0 ∨ is_target_file (bytes "Flag.Txt") = 1)) :=
  ⟨by decide, is_target_file_exact (bytes "Flag.Txt") (by decide)⟩

/-! ## Runs -/

theorem mem_out_andThen {r k : Run} {e : Event} (h : e ∈ (r.andThen k).out) :
    e ∈ r.out ∨ e ∈ k.out := by
  unfold Run.andThen at h
  split at h
  · exact List.mem_append.mp h
  · exact Or.inl h

theorem andThen_of_done (r k : Run) (h : r.done = true) :
    r.andThen k = ⟨r.out ++ k.out, k.done⟩ := by
  unfold Run.andThen
  rw [if_pos h]

theorem print_loop_done : ∀ (fuel : Nat) (f : List Nat), f.length < fuel →
    (print_loop fuel f).done = true
  | 0, _, h => by omega
  | fuel + 1, f, h => by
    rw [print_loop]
    simp only [fread]
    split
    · next hpos =>
      have hlt : (f.drop 1023).length < fuel := by
        simp only [List.length_take, List.length_drop] at hpos ⊢
        omega
      rw [andThen_of_done _ _ rfl]
      exact print_loop_done fuel (f.drop 1023) hlt
    · rfl

theorem print_loop_out : ∀ (fuel : Nat) (f : List Nat) (e : Event),
    e ∈ (print_loop fuel f).out → ∃ bs, e = Event.contents_chunk bs
  | 0, _, e, h => by simp [print_loop] at h
  | fuel + 1, f, e, h => by
    rw [print_loop] at h
    simp only [fread] at h
    split at h
    · rcases mem_out_andThen h with h1 | h1
      · simp only [Run.emit, List.mem_singleton] at h1
        exact ⟨_, h1⟩
      · exact print_loop_out fuel _ e h1
    · simp [Run.emit] at h

theorem print_file_contents_done (f : Option (List Nat)) (path : List Nat) :
    (print_file_contents f path).done = true := by
  cases f with
  | none => rfl
  | some file =>
    unfold print_file_contents
    simp only
    rw [andThen_of_done _ _ rfl, andThen_of_done _ _ (print_loop_done _ _ (by omega))]
    rfl

theorem print_file_contents_out (f : Option (List Nat)) (path : List Nat) (e : Event)
    (h : e ∈ (print_file_contents f path).out) :
    e = Event.could_not_open ∨ e = Event.contents_header path ∨
      e = Event.end_of_file ∨ ∃ bs, e = Event.contents_chunk bs := by
  cases f with
  | none =>
    simp only [print_file_contents, Run.emit, List.mem_singleton] at h
    exact Or.inl h
  | some file =>
    unfold print_file_contents at h
    simp only at h
    rcases mem_out_andThen h with h1 | h1
    · simp only [Run.emit, List.mem_singleton] at h1
      exact Or.inr (Or.inl h1)
    · rcases mem_out_andThen h1 with h2 | h2
      · exact Or.inr (Or.inr (Or.inr (print_loop_out _ _ e h2)))
      · simp only [Run.emit, List.mem_singleton] at h2
        exact Or.inr (Or.inr (Or.inl h2))

theorem count_header_print_loop (fuel : Nat) (f p : List Nat) :
    (print_loop fuel f).out.count (Event.contents_header p) = 0 := by
  rw [List.count_eq_zero]
  intro h
  obtain ⟨bs, hbs⟩ := print_loop_out fuel f _ h
  cases hbs

theorem count_header_print_file_contents (f : Option (List Nat)) (path : List Nat) :
    (print_file_contents f path).out.count (Event.contents_header path) =
      if f.isSome then 1 else 0 := by
  cases f with
  | none => simp [print_file_contents, Run.emit]
  | some file =>
    unfold print_file_contents
    simp only
    rw [andThen_of_done _ _ rfl, andThen_of_done _ _ (print_loop_done _ _ (by omega))]
    simp [Run.emit, List.count_cons, count_header_print_loop]

theorem printed_contents_append (xs ys : List Event) :
    printed_contents (xs ++ ys) = printed_contents xs ++ printed_contents ys := by
  induction xs with
  | nil => rfl
  | cons e es ih =>
    cases e <;> simp [printed_contents, ih]

theorem printed_print_loop : ∀ (fuel : Nat) (f : List Nat), f.length < fuel → 0 ∉ f →
    printed_contents (print_loop fuel f).out = f
  | 0, _, h, _ => by omega
  | fuel + 1, f, h, h0 => by
    rw [print_loop]
    simp only [fread]
    split
    · next hpos =>
      have hlt : (f.drop 1023).length < fuel := by
        simp only [List.length_take, List.length_drop] at hpos ⊢
        omega
      have h0d : 0 ∉ f.drop 1023 := fun hm => h0 (List.mem_of_mem_drop hm)
      have htw : (f.take 1023).takeWhile (fun b => decide (b ≠ 0)) = f.take 1023 := by
        rw [List.takeWhile_eq_self_iff]
        intro b hb
        have hb0 : b ≠ 0 := fun hz => h0 (hz ▸ List.mem_of_mem_take hb)
        simpa using hb0
      have ih := printed_print_loop fuel (f.drop 1023) hlt h0d
      rw [andThen_of_done _ _ rfl]
      show printed_contents (Event.contents_chunk _ :: (print_loop fuel (f.drop 1023)).out) = f
      rw [printed_contents, htw, ih, List.take_append_drop]
    · next hzero =>
      have hnil : f = [] := by
        rcases f with _ | ⟨x, xs⟩
        · rfl
        · simp at hzero
      subst hnil
      rfl

/-- A file without NUL bytes is printed verbatim. -/
theorem printed_print_file_contents (F path : List Nat) (h0 : 0 ∉ F) :
    printed_contents (print_file_contents (some F) path).out = F := by
  unfold print_file_contents
  simp only
  have ih := printed_print_loop (F.length + 1) F (by omega) h0
  rw [andThen_of_done _ _ rfl, andThen_of_done _ _ (print_loop_done _ _ (by omega))]
  show printed_contents (Event.contents_header path ::
    ((print_loop (F.length + 1) F).out ++ [Event.end_of_file])) = F
  simp [printed_contents, printed_contents_append, ih]

/-- The scanner returns for every input, and its value is 0 or 1. -/
theorem file_contains_string_total (m1 m2 : Option (Nat → Nat)) (f : Option (List Nat))
    (needle : List Nat) :
    file_contains_string m1 m2 f needle = some 0 ∨
      file_contains_string m1 m2 f needle = some 1 := by
  unfold file_contains_string
  cases f with
  | none => simp [file_contains_string_chunked, file_contains_string_run]
  | some F =>
    by_cases hn : needle = []
    · subst hn
      simp [file_contains_string_chunked, file_contains_string_run]
    · have hlen : needle.length ≠ 0 := fun h => hn (List.length_eq_zero.mp h)
      cases m1 with
      | none => simp [file_contains_string_chunked, file_contains_string_run, malloc, hlen]
      | some g1 =>
        cases m2 with
        | none => simp [file_contains_string_chunked, file_contains_string_run, malloc, hlen]
        | some g2 =>
          rw [chunked_padded 65536 g1 g2 F needle (by omega) hn]
          split
          · exact Or.inr rfl
          · exact Or.inl rfl

theorem is_target_in_cases (name : List Nat) :
    ∀ ts : List (List Nat), is_target_in name ts = 0 ∨ is_target_in name ts = 1
  | [] => Or.inl rfl
  | t :: ts => by
    rw [is_target_in]
    split
    · exact Or.inr rfl
    · exact is_target_in_cases name ts

theorem flag_check_eq (w : World) (name full : List Nat) :
    flag_check w name full =
      ⟨if is_target_file name = 1 then
          Event.flag_file_found full :: (print_file_contents (w.fopen full) full).out
        else [], true⟩ := by
  unfold flag_check
  rcases is_target_in_cases name TARGET_NAMES with h | h
  · have h1 : is_target_file name = 0 := h
    simp [h1, Run.emit]
  · have h1 : is_target_file name = 1 := h
    rw [if_pos (by omega), if_pos h1, andThen_of_done _ _ rfl,
      print_file_contents_done]
    rfl

theorem string_check_eq (w : World) (needle full : List Nat) (hn : needle ≠ []) :
    string_check w needle full =
      ⟨if file_contains_string (w.malloc_buf full) (w.malloc_lbuf full) (w.fopen full)
            needle = some 1 then [Event.string_match full] else [], true⟩ := by
  unfold string_check
  rw [if_pos hn]
  rcases file_contains_string_total (w.malloc_buf full) (w.malloc_lbuf full) (w.fopen full)
    needle with h | h
  · rw [h]
    simp [Run.emit]
  · rw [h]
    simp [Run.emit]

theorem string_check_empty (w : World) (full : List Nat) :
    string_check w [] full = Run.emit [] := by
  simp [string_check]

theorem visit_file_out_path (w : World) (needle name full : List Nat) (e : Event)
    (p : List Nat) (he : e ∈ (visit_file w needle name full).out)
    (hp : e.report_path = some p) : p = full := by
  unfold visit_file at he
  rcases mem_out_andThen he with h | h
  · rw [flag_check_eq] at h
    simp only at h
    split at h
    · rcases List.mem_cons.mp h with h1 | h1
      · subst h1
        simp only [Event.report_path, Option.some.injEq] at hp
        exact hp.symm
      · rcases print_file_contents_out _ _ _ h1 with h2 | h2 | h2 | ⟨bs, h2⟩
        · subst h2; simp [Event.report_path] at hp
        · subst h2
          simp only [Event.report_path, Option.some.injEq] at hp
          exact hp.symm
        · subst h2; simp [Event.report_path] at hp
        · subst h2; simp [Event.report_path] at hp
    · simp at h
  · by_cases hn : needle = []
    · subst hn
      rw [string_check_empty] at h
      simp [Run.emit] at h
    · rw [string_check_eq w needle full hn] at h
      simp only at h
      split at h
      · simp only [List.mem_singleton] at h
        subst h
        simp only [Event.report_path, Option.some.injEq] at hp
        exact hp.symm
      · simp at h

/-! ## The walker -/

theorem Reached.trans {w : World} {a b c : List Nat} (hab : Reached w a b)
    (hbc : Reached w b c) : Reached w a c := by
  induction hbc with
  | root => exact hab
  | step d entries name _ ho hm hl ih => exact Reached.step d entries name ih ho hm hl

theorem mem_walk_entries (w : World) (needle : List Nat) (recurse : List Nat → Run)
    (dir : List Nat) :
    ∀ (rest : List (List Nat)) (e : Event),
      e ∈ (walk_entries w needle recurse dir rest).out →
      ∃ name ∈ rest,
        (w.lstat (build_path dir name) = some FileType.regular ∧
          e ∈ (visit_file w needle name (build_path dir name)).out) ∨
        (w.lstat (build_path dir name) = some FileType.directory ∧
          e ∈ (recurse (build_path dir name)).out)
  | [], e, h => by simp [walk_entries, Run.emit] at h
  | name :: rest, e, h => by
    have lift : (∃ n ∈ rest,
        (w.lstat (build_path dir n) = some FileType.regular ∧
          e ∈ (visit_file w needle n (build_path dir n)).out) ∨
        (w.lstat (build_path dir n) = some FileType.directory ∧
          e ∈ (recurse (build_path dir n)).out)) →
        ∃ n ∈ name :: rest,
        (w.lstat (build_path dir n) = some FileType.regular ∧
          e ∈ (visit_file w needle n (build_path dir n)).out) ∨
        (w.lstat (build_path dir n) = some FileType.directory ∧
          e ∈ (recurse (build_path dir n)).out) := by
      rintro ⟨n, hn, hrest⟩
      exact ⟨n, List.mem_cons_of_mem _ hn, hrest⟩
    rw [walk_entries] at h
    split at h
    · exact lift (mem_walk_entries w needle recurse dir rest e h)
    · simp only at h
      split at h
      · exact lift (mem_walk_entries w needle recurse dir rest e h)
      · exact lift (mem_walk_entries w needle recurse dir rest e h)
      · next hl =>
        rcases mem_out_andThen h with h1 | h1
        · exact ⟨name, List.mem_cons_self _ _, Or.inr ⟨hl, h1⟩⟩
        · exact lift (mem_walk_entries w needle recurse dir rest e h1)
      · next hl =>
        rcases mem_out_andThen h with h1 | h1
        · exact ⟨name, List.mem_cons_self _ _, Or.inl ⟨hl, h1⟩⟩
        · exact lift (mem_walk_entries w needle recurse dir rest e h1)
      · exact lift (mem_walk_entries w needle recurse dir rest e h)

/-- Every event printed by `walk` is printed by the visit of a regular file
found in a directory that `walk` entered. -/
theorem mem_walk (w : World) (needle : List Nat) :
    ∀ (fuel : Nat) (root : List Nat) (e : Event), e ∈ (walk w needle fuel root).out →
      ∃ d entries name, Reached w root d ∧ w.opendir d = some entries ∧ name ∈ entries ∧
        w.lstat (build_path d name) = some FileType.regular ∧
        e ∈ (visit_file w needle name (build_path d name)).out
  | 0, _, e, h => by simp [walk] at h
  | fuel + 1, root, e, h => by
    rw [walk] at h
    split at h
    · simp [Run.emit] at h
    · next entries ho =>
      obtain ⟨name, hmem, hcase⟩ := mem_walk_entries w needle _ root entries e h
      rcases hcase with ⟨hl, hv⟩ | ⟨hl, hr⟩
      · exact ⟨root, entries, name, Reached.root, ho, hmem, hl, hv⟩
      · obtain ⟨d, es, n, hreach, hrest⟩ := mem_walk w needle fuel _ e hr
        exact ⟨d, es, n,
          Reached.trans (Reached.step root entries name Reached.root ho hmem hl) hreach,
          hrest⟩
theorem length_flatten_replicate (n : Nat) (l : List Nat) :
    ((List.replicate n l).flatten).length = n * l.length := by
  induction n with
  | zero => simp
  | succ n ih =>
    rw [List.replicate_succ, List.flatten_cons, List.length_append, ih]
    ring

theorem length_deep_dir : deep_dir.length = 4090 := by
  unfold deep_dir
  rw [length_flatten_replicate]
  decide

theorem build_path_fits (D : List Nat) (h : D.length = 4090) :
    build_path D (bytes "abcd") = D ++ bytes "/abcd" := by
  unfold build_path
  have h1 : PATH_SEP :: bytes "abcd" = bytes "/abcd" := by decide
  rw [h1]
  apply List.take_of_length_le
  rw [List.length_append, h]
  decide

theorem build_path_truncates (D : List Nat) (h : D.length = 4090) :
    build_path D (bytes "abcdefgh") = D ++ bytes "/abcd" := by
  unfold build_path
  have h1 : MAX_PATH_LEN - 1 = D.length + 5 := by
    rw [h]
    decide
  rw [h1, List.take_append]
  congr 1

/-- In a directory whose path is 4090 bytes long, the entry `abcdefgh` is
examined under the path of its sibling `abcd`. -/
theorem walk_truncated_sibling (w : World) (needle D : List Nat) (r : Run)
    (hlen : D.length = 4090)
    (ho : w.opendir D = some [bytes ".", bytes "..", bytes "abcd", bytes "abcdefgh"])
    (hl : w.lstat (D ++ bytes "/abcd") = some FileType.regular)
    (hs : string_check w needle (D ++ bytes "/abcd") = r) :
    walk w needle 1 D = r.andThen (r.andThen (Run.emit [])) := by
  have hd1 : bytes "." = bytes "." ∨ bytes "." = bytes ".." := by decide
  have hd2 : bytes ".." = bytes "." ∨ bytes ".." = bytes ".." := by decide
  have hd3 : ¬ (bytes "abcd" = bytes "." ∨ bytes "abcd" = bytes "..") := by decide
  have hd4 : ¬ (bytes "abcdefgh" = bytes "." ∨ bytes "abcdefgh" = bytes "..") := by decide
  have ht1 : ¬ is_target_file (bytes "abcd") ≠ 0 := by decide
  have ht2 : ¬ is_target_file (bytes "abcdefgh") ≠ 0 := by decide
  have he : ∀ k : Run, (Run.emit []).andThen k = k := by
    intro k
    simp [Run.andThen, Run.emit]
  rw [walk, ho]
  simp only [walk_entries, if_pos hd1, if_pos hd2, if_neg hd3, if_neg hd4,
    build_path_fits D hlen, build_path_truncates D hlen, hl, visit_file, flag_check,
    if_neg ht1, if_neg ht2, hs, he, true_or, or_true, if_true]

theorem deep_string_check :
    string_check deep_world (bytes "htb\x7b") (deep_dir ++ bytes "/abcd") =
      Run.emit [Event.string_match (deep_dir ++ bytes "/abcd")] := by
  have hf : deep_world.fopen (deep_dir ++ bytes "/abcd") = some (bytes "htb\x7bone\x7d") := by
    simp only [deep_world, if_true]
  have hscan : file_contains_string (some fun _ => 0) (some fun _ => 0)
      (some (bytes "htb\x7bone\x7d")) (bytes "htb\x7b") = some 1 := by decide
  unfold string_check
  rw [if_pos (by decide), hf]
  show (match file_contains_string (some fun _ => 0) (some fun _ => 0)
      (some (bytes "htb\x7bone\x7d")) (bytes "htb\x7b") with
    | none => (⟨[], false⟩ : Run)
    | some r => if r ≠ 0 then Run.emit [Event.string_match (deep_dir ++ bytes "/abcd")]
        else Run.emit []) = _
  rw [hscan]
  rfl

/-! ## Claims on the walker and the reports -/

theorem no_string_match_visit_empty (w : World) (name full p : List Nat) :
    Event.string_match p ∉ (visit_file w [] name full).out := by
  intro h
  unfold visit_file at h
  rcases mem_out_andThen h with h1 | h1
  · rw [flag_check_eq] at h1
    simp only at h1
    split at h1
    · rcases List.mem_cons.mp h1 with h2 | h2
      · cases h2
      · rcases print_file_contents_out _ _ _ h2 with h3 | h3 | h3 | ⟨bs, h3⟩ <;> cases h3
    · simp at h1
  · rw [string_check_empty] at h1
    simp [Run.emit] at h1

theorem no_string_match_walk_empty (w : World) (fuel : Nat) (root p : List Nat) :
    Event.string_match p ∉ (walk w [] fuel root).out := by
  intro h
  obtain ⟨d, entries, name, _, _, _, _, hv⟩ := mem_walk w [] fuel root _ h
  exact no_string_match_visit_empty w name _ p hv

/-- C3, as the code has it. When the search string is empty the program
prints no `[STRING MATCH]` line at all, for any tree, any start directory and
any path: the content search is skipped for an empty needle. -/
theorem empty_search_string_no_match (w : World) (alloc_ok : Bool) (fuel : Nat)
    (prog start_dir p : List Nat) (more : List (List Nat)) :
    Event.string_match p ∉
      (main w alloc_ok fuel (prog :: start_dir :: [] :: more)).out := by
  have hlen : ¬ (prog :: start_dir :: ([] : List Nat) :: more).length < 3 := by
    simp only [List.length_cons]
    omega
  unfold main
  rw [if_neg hlen]
  cases alloc_ok with
  | false => simp [str_dup_lower]
  | true =>
    have hwalk := no_string_match_walk_empty w fuel start_dir p
    simp only [str_dup_lower, if_true, List.getD_cons_succ, List.getD_cons_zero, List.map_nil]
    split
    · simp [hwalk]
    · simp [hwalk]

/-- C3 fails as stated: with the empty search string the regular file
`root/sub/flag.txt`, which is visited (its flag report is printed) and can be
opened, gets no `[STRING MATCH]` line, and the run ends with exit code 0. -/
theorem empty_search_string_counterexample :
    Event.flag_file_found (bytes "root/sub/flag.txt") ∈
        (main scenario true 2 [bytes "ctfhunter", bytes "root", bytes ""]).out ∧
      scenario.lstat (bytes "root/sub/flag.txt") = some FileType.regular ∧
      scenario.fopen (bytes "root/sub/flag.txt") = some (bytes "HTB\x7babc\x7d") ∧
      Event.string_match (bytes "root/sub/flag.txt") ∉
        (main scenario true 2 [bytes "ctfhunter", bytes "root", bytes ""]).out ∧
      (main scenario true 2 [bytes "ctfhunter", bytes "root", bytes ""]).exit_code =
        some 0 := by
  decide

/-- C7 fails on the code: for the openable file with the seven bytes
`HTB`, NUL, `abc`, `print_file_contents` writes only `HTB` between the header
and the end marker, because `printf("%s", buf)` stops at the first NUL of each
chunk. -/
theorem print_file_contents_stops_at_nul :
    print_file_contents (some [72, 84, 66, 0, 97, 98, 99]) (bytes "flag.txt") =
        ⟨[Event.contents_header (bytes "flag.txt"), Event.contents_chunk [72, 84, 66],
          Event.end_of_file], true⟩ ∧
      printed_contents
          (print_file_contents (some [72, 84, 66, 0, 97, 98, 99]) (bytes "flag.txt")).out =
        [72, 84, 66] ∧
      printed_contents
          (print_file_contents (some [72, 84, 66, 0, 97, 98, 99]) (bytes "flag.txt")).out ≠
        [72, 84, 66, 0, 97, 98, 99] := by
  decide

theorem Reached.real_directory {w : World} {root d : List Nat} (h : Reached w root d) :
    d = root ∨ w.lstat d = some FileType.directory := by
  cases h with
  | root => exact Or.inl rfl
  | step d entries name _ _ _ hl => exact Or.inr hl

/-- C8 (symbolic links). Every line printed by `walk` that names a path
names `build_path d name` for an entry `name` read in a directory `d` that
`walk` entered from the start directory through entries that `lstat` reports
as real directories only, and `lstat` reports the path named as a regular
file: it is not a symbolic link and no symbolic link was followed to reach
it. This holds for every prefix of a run, whether or not it finishes. -/
theorem walk_never_reports_symlink (w : World) (needle : List Nat) (fuel : Nat)
    (root : List Nat) (e : Event) (p : List Nat)
    (he : e ∈ (walk w needle fuel root).out) (hp : e.report_path = some p) :
    ∃ d entries name, Reached w root d ∧ w.opendir d = some entries ∧ name ∈ entries ∧
      p = build_path d name ∧ w.lstat p = some FileType.regular ∧
      w.lstat p ≠ some FileType.symlink ∧
      (d = root ∨ w.lstat d = some FileType.directory) := by
  obtain ⟨d, entries, name, hreach, ho, hmem, hl, hv⟩ := mem_walk w needle fuel root e he
  have hpath : p = build_path d name := visit_file_out_path w needle name _ e p hv hp
  refine ⟨d, entries, name, hreach, ho, hmem, hpath, ?_, ?_, hreach.real_directory⟩
  · rw [hpath]
    exact hl
  · rw [hpath, hl]
    simp

/-- Witness of C8: in the tree `scenario` the link `root/link` points to the
directory holding `flag.txt` and `notes.txt`; the match reported for
`root/sub/notes.txt` is reached through real directories, and nothing is
reported below the link. -/
theorem walk_never_reports_symlink_witness :
    Event.string_match (bytes "root/sub/notes.txt") ∈
        (walk scenario (bytes "htb\x7b") 2 (bytes "root")).out ∧
      (Event.string_match (bytes "root/sub/notes.txt")).report_path =
        some (bytes "root/sub/notes.txt") ∧
      (∃ d entries name, Reached scenario (bytes "root") d ∧
        scenario.opendir d = some entries ∧ name ∈ entries ∧
        bytes "root/sub/notes.txt" = build_path d name ∧
        scenario.lstat (bytes "root/sub/notes.txt") = some FileType.regular ∧
        scenario.lstat (bytes "root/sub/notes.txt") ≠ some FileType.symlink ∧
        (d = bytes "root" ∨ scenario.lstat d = some FileType.directory)) ∧
      scenario.lstat (bytes "root/link") = some FileType.symlink ∧
      scenario.fopen (bytes "root/link/flag.txt") = some (bytes "HTB\x7babc\x7d") ∧
      Event.flag_file_found (bytes "root/link/flag.txt") ∉
        (walk scenario (bytes "htb\x7b") 2 (bytes "root")).out ∧
      Event.string_match (bytes "root/link/flag.txt") ∉
        (walk scenario (bytes "htb\x7b") 2 (bytes "root")).out :=
  ⟨by decide, rfl,
    walk_never_reports_symlink scenario (bytes "htb\x7b") 2 (bytes "root")
      (Event.string_match (bytes "root/sub/notes.txt")) (bytes "root/sub/notes.txt")
      (by decide) rfl,
    by decide, by decide, by decide, by decide⟩

/-- C9 fails on the code: in the directory `deep_dir`, whose path is 4090
bytes long, `build_path` cuts the path of the entry `abcdefgh` down to the
path of its sibling `abcd`. Both regular files contain the needle, yet `walk`
scans `abcd` twice (two `[STRING MATCH]` lines for it) and never examines
`abcdefgh`. -/
theorem walk_long_path_examines_sibling_twice :
    deep_dir.length = 4090 ∧
      deep_world.opendir deep_dir =
        some [bytes ".", bytes "..", bytes "abcd", bytes "abcdefgh"] ∧
      deep_world.lstat (deep_dir ++ bytes "/abcdefgh") = some FileType.regular ∧
      deep_world.fopen (deep_dir ++ bytes "/abcdefgh") = some (bytes "htb\x7btwo\x7d") ∧
      build_path deep_dir (bytes "abcdefgh") = build_path deep_dir (bytes "abcd") ∧
      walk deep_world (bytes "htb\x7b") 1 deep_dir =
        ⟨[Event.string_match (deep_dir ++ bytes "/abcd"),
          Event.string_match (deep_dir ++ bytes "/abcd")], true⟩ := by
  refine ⟨length_deep_dir, ?_, ?_, ?_, ?_, ?_⟩
  · simp only [deep_world, if_true]
  · simp only [deep_world, or_true, if_true]
  · have hne : deep_dir ++ bytes "/abcdefgh" ≠ deep_dir ++ bytes "/abcd" := by
      intro h
      exact absurd (List.append_cancel_left h) (by decide)
    simp only [deep_world, if_neg hne, if_true]
  · rw [build_path_fits deep_dir length_deep_dir,
      build_path_truncates deep_dir length_deep_dir]
  · rw [walk_truncated_sibling deep_world (bytes "htb\x7b") deep_dir _ length_deep_dir
      (by simp only [deep_world, if_true]) (by simp only [deep_world, true_or, if_true])
      deep_string_check]
    rfl

/-- C10 (the two per-file checks). For a regular file visited with a
non-empty needle the visit returns and prints: the flag report (the
`[FLAG FILE FOUND]` line followed by the output of `print_file_contents`)
exactly when `is_target_file(name)` is 1, then one `[STRING MATCH]` line
exactly when `file_contains_string` is 1. Each check depends on its own test
only, the flag report comes first, and the contents header is printed once
when the flagged file can be opened and not at all otherwise; in particular
it is printed exactly once when both checks fire. -/
theorem visit_file_checks (w : World) (needle name full : List Nat) (hn : needle ≠ []) :
    visit_file w needle name full =
        ⟨(if is_target_file name = 1 then
              Event.flag_file_found full :: (print_file_contents (w.fopen full) full).out
            else []) ++
          (if file_contains_string (w.malloc_buf full) (w.malloc_lbuf full) (w.fopen full)
              needle = some 1 then [Event.string_match full] else []), true⟩ ∧
      (visit_file w needle name full).out.count (Event.contents_header full) =
        (if is_target_file name = 1 ∧ (w.fopen full).isSome then 1 else 0) ∧
      (visit_file w needle name full).out.count (Event.string_match full) =
        (if file_contains_string (w.malloc_buf full) (w.malloc_lbuf full) (w.fopen full)
            needle = some 1 then 1 else 0) ∧
      (visit_file w needle name full).out.count (Event.flag_file_found full) =
        (if is_target_file name = 1 then 1 else 0) ∧
      (is_target_file name = 1 →
        file_contains_string (w.malloc_buf full) (w.malloc_lbuf full) (w.fopen full)
          needle = some 1 →
        (visit_file w needle name full).out.count (Event.contents_header full) = 1) := by
  have hv : visit_file w needle name full =
      ⟨(if is_target_file name = 1 then
            Event.flag_file_found full :: (print_file_contents (w.fopen full) full).out
          else []) ++
        (if file_contains_string (w.malloc_buf full) (w.malloc_lbuf full) (w.fopen full)
            needle = some 1 then [Event.string_match full] else []), true⟩ := by
    unfold visit_file
    rw [flag_check_eq, string_check_eq w needle full hn, andThen_of_done _ _ rfl]
  have hp0 : ∀ e : Event, (∀ bs, e ≠ Event.contents_chunk bs) → e ≠ Event.could_not_open →
      e ≠ Event.contents_header full → e ≠ Event.end_of_file →
      (print_file_contents (w.fopen full) full).out.count e = 0 := by
    intro e h1 h2 h3 h4
    rw [List.count_eq_zero]
    intro hmem
    rcases print_file_contents_out _ _ _ hmem with h | h | h | ⟨bs, h⟩
    · exact h2 h
    · exact h3 h
    · exact h4 h
    · exact h1 bs h
  have hps := hp0 (Event.string_match full) (by simp) (by simp) (by simp) (by simp)
  have hpf := hp0 (Event.flag_file_found full) (by simp) (by simp) (by simp) (by simp)
  have hph := count_header_print_file_contents (w.fopen full) full
  have hcount : (visit_file w needle name full).out.count (Event.contents_header full) =
      (if is_target_file name = 1 ∧ (w.fopen full).isSome then 1 else 0) := by
    rw [hv]
    simp only [List.count_append]
    by_cases ht : is_target_file name = 1 <;>
      by_cases hs : file_contains_string (w.malloc_buf full) (w.malloc_lbuf full)
        (w.fopen full) needle = some 1 <;>
      simp [ht, hs, List.count_cons, hph]
  refine ⟨hv, hcount, ?_, ?_, ?_⟩
  · rw [hv]
    simp only [List.count_append]
    by_cases ht : is_target_file name = 1 <;>
      by_cases hs : file_contains_string (w.malloc_buf full) (w.malloc_lbuf full)
        (w.fopen full) needle = some 1 <;>
      simp [ht, hs, List.count_cons, hps]
  · rw [hv]
    simp only [List.count_append]
    by_cases ht : is_target_file name = 1 <;>
      by_cases hs : file_contains_string (w.malloc_buf full) (w.malloc_lbuf full)
        (w.fopen full) needle = some 1 <;>
      simp [ht, hs, List.count_cons, hpf]
  · intro ht hs
    have hopen : (w.fopen full).isSome = true := by
      cases hf : w.fopen full with
      | none =>
        rw [hf] at hs
        simp [file_contains_string, file_contains_string_chunked,
          file_contains_string_run] at hs
      | some F => rfl
    rw [hcount, if_pos ⟨ht, hopen⟩]

/-- Witness of C10: the scenario of the specification. With the search
string `HTB{` the run prints the flag report of `root/sub/flag.txt` with its
contents once, then a match line for it, then a match line for
`root/sub/notes.txt`. -/
theorem visit_file_checks_witness :
    bytes "htb\x7b" ≠ [] ∧
      (visit_file scenario (bytes "htb\x7b") (bytes "flag.txt") (bytes "root/sub/flag.txt") =
          ⟨(if is_target_file (bytes "flag.txt") = 1 then
                Event.flag_file_found (bytes "root/sub/flag.txt") ::
                  (print_file_contents (scenario.fopen (bytes "root/sub/flag.txt"))
                    (bytes "root/sub/flag.txt")).out
              else []) ++
            (if file_contains_string (scenario.malloc_buf (bytes "root/sub/flag.txt"))
                (scenario.malloc_lbuf (bytes "root/sub/flag.txt"))
                (scenario.fopen (bytes "root/sub/flag.txt")) (bytes "htb\x7b") = some 1
              then [Event.string_match (bytes "root/sub/flag.txt")] else []), true⟩ ∧
        (visit_file scenario (bytes "htb\x7b") (bytes "flag.txt")
            (bytes "root/sub/flag.txt")).out.count
            (Event.contents_header (bytes "root/sub/flag.txt")) =
          (if is_target_file (bytes "flag.txt") = 1 ∧
              (scenario.fopen (bytes "root/sub/flag.txt")).isSome then 1 else 0) ∧
        (visit_file scenario (bytes "htb\x7b") (bytes "flag.txt")
            (bytes "root/sub/flag.txt")).out.count
            (Event.string_match (bytes "root/sub/flag.txt")) =
          (if file_contains_string (scenario.malloc_buf (bytes "root/sub/flag.txt"))
              (scenario.malloc_lbuf (bytes "root/sub/flag.txt"))
              (scenario.fopen (bytes "root/sub/flag.txt")) (bytes "htb\x7b") = some 1
            then 1 else 0) ∧
        (visit_file scenario (bytes "htb\x7b") (bytes "flag.txt")
            (bytes "root/sub/flag.txt")).out.count
            (Event.flag_file_found (bytes "root/sub/flag.txt")) =
          (if is_target_file (bytes "flag.txt") = 1 then 1 else 0) ∧
        (is_target_file (bytes "flag.txt") = 1 →
          file_contains_string (scenario.malloc_buf (bytes "root/sub/flag.txt"))
            (scenario.malloc_lbuf (bytes "root/sub/flag.txt"))
            (scenario.fopen (bytes "root/sub/flag.txt")) (bytes "htb\x7b") = some 1 →
          (visit_file scenario (bytes "htb\x7b") (bytes "flag.txt")
              (bytes "root/sub/flag.txt")).out.count
              (Event.contents_header (bytes "root/sub/flag.txt")) = 1)) ∧
      main scenario true 2 [bytes "ctfhunter", bytes "root", bytes "HTB\x7b"] =
        ⟨[Event.banner (bytes "root") (bytes "HTB\x7b"),
          Event.flag_file_found (bytes "root/sub/flag.txt"),
          Event.contents_header (bytes "root/sub/flag.txt"),
          Event.contents_chunk (bytes "HTB\x7babc\x7d"),
          Event.end_of_file,
          Event.string_match (bytes "root/sub/flag.txt"),
          Event.string_match (bytes "root/sub/notes.txt"),
          Event.done_banner], some 0⟩ :=
  ⟨by decide,
    visit_file_checks scenario (bytes "htb\x7b") (bytes "flag.txt") (bytes "root/sub/flag.txt")
      (by decide),
    by decide⟩

/-! ## Further claims on the scanner -/

/-- The scanner returns 0 when the needle does not occur in the lower-cased
file preceded by the zero padding, whatever the chunk size and the outcome of
the allocations. -/
theorem chunked_zero_of_not_padded (bufsize : Nat) (m1 m2 : Option (Nat → Nat))
    (F needle : List Nat) (hn : needle ≠ [])
    (hno : ¬ needle <:+: List.replicate (needle.length - 1) 0 ++ F.map tolower) :
    file_contains_string_chunked bufsize m1 m2 (some F) needle = some 0 := by
  have hlen : needle.length ≠ 0 := fun h => hn (List.length_eq_zero.mp h)
  cases m1 with
  | none => simp [file_contains_string_chunked, file_contains_string_run, malloc, hlen]
  | some g1 =>
    cases m2 with
    | none => simp [file_contains_string_chunked, file_contains_string_run, malloc, hlen]
    | some g2 =>
      by_cases hc : 1 ≤ bufsize
      · rw [chunked_padded bufsize g1 g2 F needle hc hn, if_neg hno]
      · have hz : bufsize = 0 := by omega
        subst hz
        simp [file_contains_string_chunked, file_contains_string_run, malloc, hlen,
          scan_loop, fread]

/-- C11 (needle longer than the file). For every file content `F` and every
NUL-free needle `N` with more bytes than `F`, `file_contains_string(F, N)`
returns 0, for the chunk size 65536 of the source and for every other chunk
size, whatever the outcome of the allocations. -/
theorem needle_longer_than_file (chunk_size : Nat) (m1 m2 : Option (Nat → Nat))
    (F N : List Nat) (h0 : 0 ∉ N) (hlen : F.length < N.length) :
    file_contains_string m1 m2 (some F) N = some 0 ∧
      file_contains_string_chunked chunk_size m1 m2 (some F) N = some 0 := by
  have hN : N ≠ [] := by
    intro h
    rw [h] at hlen
    simp at hlen
  have hno : ¬ N <:+: F.map tolower := not_occurs_of_short (by simpa using hlen)
  exact ⟨chunked_no_occurrence 65536 m1 m2 F N hN h0 hno,
    chunked_no_occurrence chunk_size m1 m2 F N hN h0 hno⟩

/-- Witness of C11: the needle `htb{` and the file `htb`. -/
theorem needle_longer_than_file_witness :
    0 ∉ bytes "htb\x7b" ∧ (bytes "htb").length < (bytes "htb\x7b").length ∧
      file_contains_string (some fun _ => 0) (some fun _ => 0) (some (bytes "htb"))
        (bytes "htb\x7b") = some 0 ∧
      file_contains_string_chunked 2 (some fun _ => 0) (some fun _ => 0) (some (bytes "htb"))
        (bytes "htb\x7b") = some 0 :=
  ⟨by decide, by decide,
    needle_longer_than_file 2 (some fun _ => 0) (some fun _ => 0) (bytes "htb")
      (bytes "htb\x7b") (by decide) (by decide)⟩

theorem naive_search_cases (needle : List Nat) :
    ∀ hay : List Nat, naive_search needle hay = 0 ∨ naive_search needle hay = 1
  | [] => by
    rw [naive_search]
    split
    · exact Or.inr rfl
    · exact Or.inl rfl
  | h :: t => by
    rw [naive_search]
    split
    · exact Or.inr rfl
    · exact naive_search_cases needle t

theorem naive_search_iff (needle : List Nat) :
    ∀ hay : List Nat, naive_search needle hay = 1 ↔ needle <:+: hay
  | [] => by
    rw [naive_search]
    by_cases h : needle = []
    · simp [h]
    · simp [h]
  | h :: t => by
    rw [naive_search, List.infix_cons_iff, List.prefix_iff_eq_take]
    by_cases hp : (h :: t).take needle.length = needle
    · simp [hp]
    · have hp2 : ¬ needle = (h :: t).take needle.length := fun e => hp e.symm
      simp only [hp, hp2, if_false, false_or]
      exact naive_search_iff needle t

theorem chunked_eq_naive (bufsize : Nat) (g1 g2 : Nat → Nat) (F needle : List Nat)
    (hc : 1 ≤ bufsize) (hn : needle ≠ []) (h0 : 0 ∉ needle) :
    file_contains_string_chunked bufsize (some g1) (some g2) (some F) needle =
      some (naive_search needle (F.map tolower)) := by
  rw [chunked_eq_search bufsize g1 g2 F needle hc hn h0]
  by_cases h : needle <:+: F.map tolower
  · rw [if_pos h, (naive_search_iff needle _).mpr h]
  · rw [if_neg h]
    rcases naive_search_cases needle (F.map tolower) with h1 | h1
    · rw [h1]
    · exact absurd ((naive_search_iff needle _).mp h1) h

/-- C15 (chunk-size independence). For every file content `F`, every
non-empty NUL-free needle `N` and all chunk sizes `c1, c2 >= 1`, also smaller
than `len(N) - 1`, the scanner run with chunk size `c1` and the scanner run
with chunk size `c2` return the same value, the verdict of the whole-file
search `naive_search` for `N` in the lower-cased `F`; the initial contents of
the buffers play no part. -/
theorem chunk_size_independent (c1 c2 : Nat) (g1 g2 g3 g4 : Nat → Nat) (F N : List Nat)
    (h1 : 1 ≤ c1) (h2 : 1 ≤ c2) (hN : N ≠ []) (h0 : 0 ∉ N) :
    file_contains_string_chunked c1 (some g1) (some g2) (some F) N =
        some (naive_search N (F.map tolower)) ∧
      file_contains_string_chunked c2 (some g3) (some g4) (some F) N =
        some (naive_search N (F.map tolower)) ∧
      file_contains_string (some g1) (some g2) (some F) N =
        some (naive_search N (F.map tolower)) ∧
      file_contains_string_chunked c1 (some g1) (some g2) (some F) N =
        file_contains_string_chunked c2 (some g3) (some g4) (some F) N := by
  have e1 := chunked_eq_naive c1 g1 g2 F N h1 hN h0
  have e2 := chunked_eq_naive c2 g3 g4 F N h2 hN h0
  have e3 := chunked_eq_naive 65536 g1 g2 F N (by omega) hN h0
  exact ⟨e1, e2, e3, e1.trans e2.symm⟩

/-- Witness of C15: chunk sizes 1 and 7 for the needle `htb{` of length 4. -/
theorem chunk_size_independent_witness :
    1 ≤ 1 ∧ 1 ≤ 7 ∧ bytes "htb\x7b" ≠ [] ∧ 0 ∉ bytes "htb\x7b" ∧
      (file_contains_string_chunked 1 (some fun _ => 1) (some fun _ => 2)
          (some (bytes "the flag is HTB\x7babc\x7d here")) (bytes "htb\x7b") =
          some (naive_search (bytes "htb\x7b")
            ((bytes "the flag is HTB\x7babc\x7d here").map tolower)) ∧
        file_contains_string_chunked 7 (some fun _ => 3) (some fun _ => 4)
          (some (bytes "the flag is HTB\x7babc\x7d here")) (bytes "htb\x7b") =
          some (naive_search (bytes "htb\x7b")
            ((bytes "the flag is HTB\x7babc\x7d here").map tolower)) ∧
        file_contains_string (some fun _ => 1) (some fun _ => 2)
          (some (bytes "the flag is HTB\x7babc\x7d here")) (bytes "htb\x7b") =
          some (naive_search (bytes "htb\x7b")
            ((bytes "the flag is HTB\x7babc\x7d here").map tolower)) ∧
        file_contains_string_chunked 1 (some fun _ => 1) (some fun _ => 2)
          (some (bytes "the flag is HTB\x7babc\x7d here")) (bytes "htb\x7b") =
          file_contains_string_chunked 7 (some fun _ => 3) (some fun _ => 4)
            (some (bytes "the flag is HTB\x7babc\x7d here")) (bytes "htb\x7b")) ∧
      naive_search (bytes "htb\x7b")
        ((bytes "the flag is HTB\x7babc\x7d here").map tolower) = 1 :=
  ⟨by decide, by decide, by decide, by decide,
    chunk_size_independent 1 7 (fun _ => 1) (fun _ => 2) (fun _ => 3) (fun _ => 4)
      (bytes "the flag is HTB\x7babc\x7d here") (bytes "htb\x7b")
      (by decide) (by decide) (by decide) (by decide),
    by decide⟩

theorem tolower_not_upper (x : Nat) : ¬ (65 ≤ tolower x ∧ tolower x ≤ 90) := by
  unfold tolower
  split <;> omega

/-- C19 (the needle must be lower-cased). For every file content `F` and
every needle that contains a byte in `'A'..'Z'`, `file_contains_string(F,
needle)` returns 0, also when the needle occurs verbatim in `F`: the needle is
compared with lower-cased bytes only. -/
theorem upper_case_needle_never_matches (chunk_size : Nat) (m1 m2 : Option (Nat → Nat))
    (F needle : List Nat) (b : Nat) (hb : b ∈ needle) (h65 : 65 ≤ b) (h90 : b ≤ 90) :
    file_contains_string m1 m2 (some F) needle = some 0 ∧
      file_contains_string_chunked chunk_size m1 m2 (some F) needle = some 0 := by
  have hn : needle ≠ [] := List.ne_nil_of_mem hb
  have hno : ¬ needle <:+: List.replicate (needle.length - 1) 0 ++ F.map tolower := by
    intro h
    have hmem : b ∈ List.replicate (needle.length - 1) 0 ++ F.map tolower := h.subset hb
    rcases List.mem_append.mp hmem with hz | hf
    · have : b = 0 := (List.mem_replicate.mp hz).2
      omega
    · obtain ⟨x, _, hx⟩ := List.mem_map.mp hf
      exact tolower_not_upper x (by rw [hx]; exact ⟨h65, h90⟩)
  exact ⟨chunked_zero_of_not_padded 65536 m1 m2 F needle hn hno,
    chunked_zero_of_not_padded chunk_size m1 m2 F needle hn hno⟩

/-- Witness of C19: the needle `HTB{` is not found in the file `HTB{abc}`. -/
theorem upper_case_needle_never_matches_witness :
    84 ∈ bytes "HTB\x7b" ∧ 65 ≤ 84 ∧ 84 ≤ 90 ∧
      bytes "HTB\x7b" <:+: bytes "HTB\x7babc\x7d" ∧
      file_contains_string (some fun _ => 0) (some fun _ => 0)
        (some (bytes "HTB\x7babc\x7d")) (bytes "HTB\x7b") = some 0 ∧
      file_contains_string_chunked 3 (some fun _ => 0) (some fun _ => 0)
        (some (bytes "HTB\x7babc\x7d")) (bytes "HTB\x7b") = some 0 :=
  ⟨by decide, by decide, by decide, by decide,
    upper_case_needle_never_matches 3 (some fun _ => 0) (some fun _ => 0)
      (bytes "HTB\x7babc\x7d") (bytes "HTB\x7b") 84 (by decide) (by decide) (by decide)⟩

/-! ## Claims on case folding -/

theorem str_icmp_antisymm : ∀ (a b : List Nat), str_icmp a b = - str_icmp b a
  | [], [] => by simp [str_icmp]
  | [], y :: ys => by simp [str_icmp]
  | x :: xs, [] => by simp [str_icmp]
  | x :: xs, y :: ys => by
    rw [str_icmp, str_icmp]
    by_cases h : tolower x = tolower y
    · have h2 : tolower y = tolower x := h.symm
      simp only [ne_eq, h, not_true_eq_false, if_false]
      exact str_icmp_antisymm xs ys
    · have h2 : ¬ tolower y = tolower x := fun e => h e.symm
      simp only [ne_eq, h, h2, not_false_eq_true, if_true]
      omega

/-- The value of `str_icmp` is the difference of the first pair of lower-cased
bytes that differ, the end of a string counting as the byte 0. -/
theorem str_icmp_first_diff :
    ∀ (a b : List Nat), 0 ∉ a → 0 ∉ b → ∀ i : Nat,
      (∀ j, j < i → (a.map tolower).getD j 0 = (b.map tolower).getD j 0) →
      (a.map tolower).getD i 0 ≠ (b.map tolower).getD i 0 →
      str_icmp a b =
        (((a.map tolower).getD i 0 : Nat) : Int) - (((b.map tolower).getD i 0 : Nat) : Int)
  | [], [], _, _, i, _, hd => by simp at hd
  | [], y :: ys, _, hb, i, heq, _ => by
    have hy : tolower y ≠ 0 := fun h => hb (by simp [(tolower_eq_zero y).mp h])
    have hi : i = 0 := by
      by_contra hne
      have h0 := heq 0 (Nat.pos_of_ne_zero hne)
      simp only [List.map_nil, List.map_cons, List.getD_cons_zero] at h0
      exact hy (by simpa using h0.symm)
    subst hi
    simp [str_icmp, tolower]
  | x :: xs, [], ha, _, i, heq, _ => by
    have hx : tolower x ≠ 0 := fun h => ha (by simp [(tolower_eq_zero x).mp h])
    have hi : i = 0 := by
      by_contra hne
      have h0 := heq 0 (Nat.pos_of_ne_zero hne)
      simp only [List.map_nil, List.map_cons, List.getD_cons_zero] at h0
      exact hx (by simpa using h0)
    subst hi
    simp [str_icmp, tolower]
  | x :: xs, y :: ys, ha, hb, i, heq, hd => by
    have hxs : 0 ∉ xs := fun h => ha (List.mem_cons_of_mem _ h)
    have hys : 0 ∉ ys := fun h => hb (List.mem_cons_of_mem _ h)
    rw [str_icmp]
    by_cases h : tolower x = tolower y
    · simp only [ne_eq, h, not_true_eq_false, if_false]
      cases i with
      | zero =>
        simp only [List.map_cons, List.getD_cons_zero] at hd
        exact absurd h hd
      | succ k =>
        simp only [List.map_cons, List.getD_cons_succ] at hd ⊢
        refine str_icmp_first_diff xs ys hxs hys k ?_ hd
        intro j hj
        have := heq (j + 1) (by omega)
        simpa only [List.map_cons, List.getD_cons_succ] using this
    · simp only [ne_eq, h, not_false_eq_true, if_true]
      have hi : i = 0 := by
        by_contra hne
        have h0 := heq 0 (Nat.pos_of_ne_zero hne)
        simp only [List.map_cons, List.getD_cons_zero] at h0
        exact h h0
      subst hi
      simp only [List.map_cons, List.getD_cons_zero]

/-- C16 (case-insensitive comparison). For all C strings `a` and `b`:
`str_icmp(a, b)` is 0 exactly when they have the same length and are
byte-wise equal after ASCII lower-casing; otherwise it is the difference, so
it has the sign, of the first pair of lower-cased bytes that differ, the end
of a string counting as 0; and `str_icmp(a, b) = -str_icmp(b, a)`. -/
theorem str_icmp_spec (a b : List Nat) (ha : 0 ∉ a) (hb : 0 ∉ b) :
    (str_icmp a b = 0 ↔ a.length = b.length ∧ a.map tolower = b.map tolower) ∧
      (∀ i : Nat,
        (∀ j, j < i → (a.map tolower).getD j 0 = (b.map tolower).getD j 0) →
        (a.map tolower).getD i 0 ≠ (b.map tolower).getD i 0 →
        str_icmp a b =
          (((a.map tolower).getD i 0 : Nat) : Int) -
            (((b.map tolower).getD i 0 : Nat) : Int)) ∧
      str_icmp a b = - str_icmp b a := by
  refine ⟨?_, str_icmp_first_diff a b ha hb, str_icmp_antisymm a b⟩
  rw [str_icmp_eq_zero a b ha hb]
  constructor
  · intro h
    refine ⟨?_, h⟩
    have := congrArg List.length h
    simpa using this
  · exact fun h => h.2

/-- Witness of C16: `Flag.txt` against `flag.TXT` (equal) and against
`flags` (the byte `.` against `s`). -/
theorem str_icmp_spec_witness :
    0 ∉ bytes "Flag.txt" ∧ 0 ∉ bytes "flags" ∧
      ((str_icmp (bytes "Flag.txt") (bytes "flags") = 0 ↔
          (bytes "Flag.txt").length = (bytes "flags").length ∧
            (bytes "Flag.txt").map tolower = (bytes "flags").map tolower) ∧
        (∀ i : Nat,
          (∀ j, j < i → ((bytes "Flag.txt").map tolower).getD j 0 =
            ((bytes "flags").map tolower).getD j 0) →
          ((bytes "Flag.txt").map tolower).getD i 0 ≠
            ((bytes "flags").map tolower).getD i 0 →
          str_icmp (bytes "Flag.txt") (bytes "flags") =
            ((((bytes "Flag.txt").map tolower).getD i 0 : Nat) : Int) -
              ((((bytes "flags").map tolower).getD i 0 : Nat) : Int)) ∧
        str_icmp (bytes "Flag.txt") (bytes "flags") =
          - str_icmp (bytes "flags") (bytes "Flag.txt")) ∧
      str_icmp (bytes "Flag.txt") (bytes "flags") = 46 - 115 ∧
      str_icmp (bytes "Flag.txt") (bytes "flag.TXT") = 0 ∧
      str_icmp (bytes "flag") (bytes "flag.txt") = -46 :=
  ⟨by decide, by decide, str_icmp_spec (bytes "Flag.txt") (bytes "flags") (by decide) (by decide),
    by decide, by decide, by decide⟩

/-- C17 (needle folding). For every C string `s`, `str_dup_lower(s)` (its
allocation succeeding) has the length of `s`, holds at every index the byte of
`s` plus 32 when that byte is in `'A'..'Z'` and the byte of `s` itself
otherwise (bytes `>= 0x80` included), and folding it again changes nothing. -/
theorem str_dup_lower_spec (s : List Nat) :
    ∃ t, str_dup_lower true s = some t ∧ t.length = s.length ∧
      (∀ i, i < s.length →
        (65 ≤ s.getD i 0 ∧ s.getD i 0 ≤ 90 →
          t.getD i 0 = s.getD i 0 + 32 ∧ 97 ≤ t.getD i 0 ∧ t.getD i 0 ≤ 122) ∧
        (¬ (65 ≤ s.getD i 0 ∧ s.getD i 0 ≤ 90) → t.getD i 0 = s.getD i 0) ∧
        (128 ≤ s.getD i 0 → t.getD i 0 = s.getD i 0)) ∧
      str_dup_lower true t = some t ∧
      (str_dup_lower true s).bind (str_dup_lower true) = str_dup_lower true s := by
  have hidem : ∀ x : Nat, tolower (tolower x) = tolower x := by
    intro x
    unfold tolower
    by_cases h : 65 ≤ x ∧ x ≤ 90
    · rw [if_pos h, if_neg (by omega)]
    · rw [if_neg h, if_neg h]
  have hmap : (s.map tolower).map tolower = s.map tolower := by
    rw [List.map_map]
    apply List.map_congr_left
    intro x _
    exact hidem x
  refine ⟨s.map tolower, by simp [str_dup_lower], by simp, ?_, by simp [str_dup_lower, hmap],
    by simp [str_dup_lower, hmap]⟩
  intro i hi
  have hget : (s.map tolower).getD i 0 = tolower (s.getD i 0) := by
    rw [List.getD_eq_getElem _ _ (by simpa using hi), List.getD_eq_getElem _ _ hi,
      List.getElem_map]
  rw [hget]
  unfold tolower
  refine ⟨?_, ?_, ?_⟩
  · intro h
    rw [if_pos h]
    omega
  · intro h
    rw [if_neg h]
  · intro h
    rw [if_neg (by omega)]

/-! ## The iterations of the scan loop -/

theorem search_snd_bound (lbuf needle : List Nat) (total i : Nat)
    (h : i < (search lbuf needle total).2) : i + needle.length ≤ total := by
  unfold search at h
  cases hs : search_hit lbuf needle total with
  | none =>
    rw [hs] at h
    simp only at h
    omega
  | some j =>
    rw [hs] at h
    simp only at h
    simp only [search_hit] at hs
    have h2 := List.mem_of_find?_eq_some hs
    simp only [List.mem_range] at h2
    omega

theorem search_snd_of_miss (lbuf needle : List Nat) (total : Nat)
    (h : (search lbuf needle total).1 = 0) :
    (search lbuf needle total).2 = total + 1 - needle.length := by
  unfold search at h ⊢
  cases hs : search_hit lbuf needle total with
  | none => rfl
  | some j =>
    rw [hs] at h
    simp at h

theorem scan_trace_head (bufsize : Nat) (needle : List Nat) (hn : needle ≠ [])
    (fuel : Nat) (f buf lbuf : List Nat) (hbuf : needle.length - 1 ≤ buf.length) :
    ∃ it rest, scan_trace bufsize needle (fuel + 1) f buf lbuf = it :: rest ∧
      IterOK bufsize needle (buf.take (needle.length - 1)) f it ∧
      (it.slide = false → rest = []) ∧
      (it.slide = true → rest = scan_trace bufsize needle fuel (f.drop bufsize)
        (memmove_front (write_at buf (needle.length - 1) (f.take bufsize))
          (f.take bufsize).length (needle.length - 1))
        (memmove_front (write_at lbuf 0
            ((buf.take (needle.length - 1) ++ f.take bufsize).map tolower))
          (f.take bufsize).length (needle.length - 1))) := by
  have hpos : 0 < needle.length := List.length_pos.mpr hn
  have hwin : (write_at buf (needle.length - 1) (f.take bufsize)).take
      (needle.length - 1 + (f.take bufsize).length) =
      buf.take (needle.length - 1) ++ f.take bufsize :=
    take_write_at _ _ _ hbuf
  have hPlen : (buf.take (needle.length - 1)).length = needle.length - 1 := by
    simp only [List.length_take]
    omega
  have hnlen : (f.take bufsize).length = min bufsize f.length := List.length_take _ _
  rw [scan_trace]
  simp only [fread]
  rw [hwin]
  by_cases h0 : (f.take bufsize).length = 0
  · rw [if_pos h0]
    refine ⟨_, _, rfl, ?_, fun _ => rfl, ?_⟩
    · refine ⟨rfl, ?_, rfl, Or.inl rfl, ?_, ?_, fun _ => rfl, ?_⟩
      · show 0 = min bufsize f.length
        omega
      · simp only [zero_ne_one, false_iff]
        apply not_occurs_of_short
        simp only [List.length_map, List.length_append, hPlen, h0]
        omega
      · intro i hi
        simp at hi
      · simp
    · intro h
      simp at h
  · rw [if_neg h0]
    set W := (buf.take (needle.length - 1) ++ f.take bufsize).map tolower with hW
    have hWlen : W.length = needle.length - 1 + (f.take bufsize).length := by
      simp only [hW, List.length_map, List.length_append, hPlen]
    rw [← hWlen]
    have hsearch := search_window_iff lbuf needle W
    have hcases := search_fst_cases (write_at lbuf 0 W) needle W.length
    have hbound := search_snd_bound (write_at lbuf 0 W) needle W.length
    have hmiss := search_snd_of_miss (write_at lbuf 0 W) needle W.length
    have hsrc : W.length - (needle.length - 1) = (f.take bufsize).length := by omega
    by_cases hcont : (search (write_at lbuf 0 W) needle W.length).1 = 0 ∧
        (f.take bufsize).length = bufsize
    · rw [if_pos hcont, hsrc]
      refine ⟨_, _, rfl, ?_, ?_, fun _ => rfl⟩
      · refine ⟨rfl, hnlen, rfl, hcases, ?_, ?_, ?_, ?_⟩
        · exact hsearch
        · intro i hi
          have := hbound i hi
          show i + needle.length ≤ needle.length - 1 + (f.take bufsize).length
          omega
        · intro h
          have := hmiss h
          show (search (write_at lbuf 0 W) needle W.length).2 = (f.take bufsize).length
          omega
        · simp only [true_iff]
          exact ⟨hcont.1, hcont.2, h0⟩
      · intro h
        simp at h
    · rw [if_neg hcont]
      refine ⟨_, _, rfl, ?_, fun _ => rfl, ?_⟩
      · refine ⟨rfl, hnlen, rfl, hcases, ?_, ?_, ?_, ?_⟩
        · exact hsearch
        · intro i hi
          have := hbound i hi
          show i + needle.length ≤ needle.length - 1 + (f.take bufsize).length
          omega
        · intro h
          have := hmiss h
          show (search (write_at lbuf 0 W) needle W.length).2 = (f.take bufsize).length
          omega
        · simp only [false_iff, Bool.false_eq_true]
          intro h
          exact hcont ⟨h.1, h.2.1⟩
      · intro h
        simp at h

theorem shift_overlap (P f : List Nat) (b k : Nat) (hb : b ≤ f.length) :
    ((P ++ f.take b).drop b ++ (f.drop b).take (k * b)).drop (k * b) =
      (P ++ f.take ((k + 1) * b)).drop ((k + 1) * b) := by
  have h1 : (k + 1) * b = b + k * b := by ring
  have hlen : b ≤ (P ++ f.take b).length := by
    simp only [List.length_append, List.length_take]
    omega
  rw [h1, List.take_add, ← List.append_assoc, ← List.drop_drop,
    List.drop_append_of_le_length hlen]

/-- Every recorded iteration starts from the state reached after `k` full
reads: the overlap area holds the last `overlap` bytes of what came before,
and all earlier iterations ended with a slide. -/
theorem scan_trace_spec (bufsize : Nat) (needle : List Nat) (hn : needle ≠ []) :
    ∀ (fuel : Nat) (f buf lbuf : List Nat), needle.length - 1 ≤ buf.length →
      ∀ (k : Nat) (it : ScanIter),
        (scan_trace bufsize needle fuel f buf lbuf)[k]? = some it →
        k * bufsize ≤ f.length ∧
          IterOK bufsize needle
            ((buf.take (needle.length - 1) ++ f.take (k * bufsize)).drop (k * bufsize))
            (f.drop (k * bufsize)) it ∧
          ∀ j, j < k → ∃ it', (scan_trace bufsize needle fuel f buf lbuf)[j]? = some it' ∧
            it'.slide = true := by
  intro fuel
  induction fuel with
  | zero =>
    intro f buf lbuf _ k it h
    simp [scan_trace] at h
  | succ fuel ih =>
    intro f buf lbuf hbuf k it h
    obtain ⟨it0, rest, htr, hok, hstop, hgo⟩ := scan_trace_head bufsize needle hn fuel f buf lbuf hbuf
    rw [htr] at h ⊢
    cases k with
    | zero =>
      simp only [List.getElem?_cons_zero, Option.some.injEq] at h
      subst h
      refine ⟨by omega, ?_, fun j hj => by omega⟩
      simpa using hok
    | succ k =>
      simp only [List.getElem?_cons_succ] at h
      have hslide : it0.slide = true := by
        cases hs : it0.slide with
        | true => rfl
        | false =>
          rw [hstop hs] at h
          simp at h
      have hrest := hgo hslide
      obtain ⟨_, hfull, hne⟩ := hok.slide_iff.mp hslide
      have hb : bufsize ≤ f.length := by
        have := hok.n_eq
        omega
      have hchunk : (f.take bufsize).length = bufsize := by
        simp only [List.length_take]
        omega
      have hb1 := length_write_at buf (f.take bufsize) (needle.length - 1) hbuf
      have hmm := memmove_front_spec (write_at buf (needle.length - 1) (f.take bufsize))
        (f.take bufsize).length (needle.length - 1) (by omega)
      rw [hrest] at h
      obtain ⟨hk, hit, hprev⟩ := ih _ _ _ hmm.2 k it h
      have htake : (memmove_front (write_at buf (needle.length - 1) (f.take bufsize))
          (f.take bufsize).length (needle.length - 1)).take (needle.length - 1) =
          (buf.take (needle.length - 1) ++ f.take bufsize).drop bufsize := by
        rw [hmm.1, Nat.add_comm, take_write_at _ _ _ hbuf, hchunk]
      rw [htake, shift_overlap _ _ _ _ hb, List.drop_drop] at hit
      have hmul : (k + 1) * bufsize = bufsize + k * bufsize := by ring
      refine ⟨?_, ?_, ?_⟩
      · simp only [List.length_drop] at hk
        omega
      · rw [hmul]
        rw [hmul] at hit
        exact hit
      · intro j hj
        cases j with
        | zero => exact ⟨it0, by simp, hslide⟩
        | succ j =>
          obtain ⟨it', h1, h2⟩ := hprev j (by omega)
          refine ⟨it', ?_, h2⟩
          simp only [List.getElem?_cons_succ]
          rw [hrest]
          exact h1

/-- The result of the loop read off the record of its iterations. -/
theorem scan_loop_trace (bufsize : Nat) (needle : List Nat) :
    ∀ (fuel : Nat) (f buf lbuf : List Nat) (r : ScanResult),
      scan_loop bufsize needle fuel f buf lbuf = some r →
      r.reads = (scan_trace bufsize needle fuel f buf lbuf).map ScanIter.n ∧
        r.compares = ((scan_trace bufsize needle fuel f buf lbuf).map ScanIter.compares).sum ∧
        (scan_trace bufsize needle fuel f buf lbuf).getLast?.map ScanIter.hit =
          some r.found := by
  intro fuel
  induction fuel with
  | zero =>
    intro f buf lbuf r h
    simp [scan_loop] at h
  | succ fuel ih =>
    intro f buf lbuf r h
    rw [scan_loop] at h
    rw [scan_trace]
    simp only [fread] at h ⊢
    by_cases h0 : (f.take bufsize).length = 0
    · rw [if_pos h0] at h ⊢
      simp only [Option.some.injEq] at h
      subst h
      simp
    · rw [if_neg h0] at h ⊢
      split at h
      · next hcont =>
        rw [if_pos hcont]
        cases hrec : scan_loop bufsize needle fuel (f.drop bufsize)
            (memmove_front (write_at buf (needle.length - 1) (f.take bufsize))
              (needle.length - 1 + (f.take bufsize).length - (needle.length - 1))
              (needle.length - 1))
            (memmove_front (write_at lbuf 0
                (((write_at buf (needle.length - 1) (f.take bufsize)).take
                  (needle.length - 1 + (f.take bufsize).length)).map tolower))
              (needle.length - 1 + (f.take bufsize).length - (needle.length - 1))
              (needle.length - 1)) with
        | none =>
          rw [hrec] at h
          simp at h
        | some r' =>
          rw [hrec] at h
          simp only [Option.map_some', Option.some.injEq] at h
          subst h
          obtain ⟨e1, e2, e3⟩ := ih _ _ _ r' hrec
          refine ⟨?_, ?_, ?_⟩
          · simp only [List.map_cons, e1]
          · simp only [List.map_cons, List.sum_cons, e2]
          · revert e3
            generalize scan_trace bufsize needle fuel (f.drop bufsize)
                (memmove_front (write_at buf (needle.length - 1) (f.take bufsize))
                  (needle.length - 1 + (f.take bufsize).length - (needle.length - 1))
                  (needle.length - 1))
                (memmove_front (write_at lbuf 0
                    (((write_at buf (needle.length - 1) (f.take bufsize)).take
                      (needle.length - 1 + (f.take bufsize).length)).map tolower))
                  (needle.length - 1 + (f.take bufsize).length - (needle.length - 1))
                  (needle.length - 1)) = T
            intro e3
            cases T with
            | nil => simp at e3
            | cons x xs =>
              rw [List.getLast?_cons_cons]
              exact e3
      · next hcont =>
        rw [if_neg hcont]
        simp only [Option.some.injEq] at h
        subst h
        simp

/-- How many reads and comparisons the loop makes: at most `len / bufsize + 1`
reads, and when nothing is found every byte of the file is read once and
compared once. -/
theorem scan_loop_counts (bufsize : Nat) (needle : List Nat) (hc : 1 ≤ bufsize)
    (hn : needle ≠ []) :
    ∀ (fuel : Nat) (f buf lbuf : List Nat) (r : ScanResult),
      scan_loop bufsize needle fuel f buf lbuf = some r →
      r.reads.length ≤ f.length / bufsize + 1 ∧
        (r.found = 0 → r.reads.sum = f.length ∧ r.compares = f.length) := by
  have hpos : 0 < needle.length := List.length_pos.mpr hn
  intro fuel
  induction fuel with
  | zero =>
    intro f buf lbuf r h
    simp [scan_loop] at h
  | succ fuel ih =>
    intro f buf lbuf r h
    rw [scan_loop] at h
    simp only [fread] at h
    have hnlen : (f.take bufsize).length = min bufsize f.length := List.length_take _ _
    by_cases h0 : (f.take bufsize).length = 0
    · rw [if_pos h0] at h
      simp only [Option.some.injEq] at h
      subst h
      refine ⟨by simp, fun _ => ?_⟩
      simp only [List.sum_cons, List.sum_nil]
      omega
    · rw [if_neg h0] at h
      split at h
      · next hcont =>
        obtain ⟨hs0, hfull⟩ := hcont
        have hs2 := search_snd_of_miss _ _ _ hs0
        cases hrec : scan_loop bufsize needle fuel (f.drop bufsize)
            (memmove_front (write_at buf (needle.length - 1) (f.take bufsize))
              (needle.length - 1 + (f.take bufsize).length - (needle.length - 1))
              (needle.length - 1))
            (memmove_front (write_at lbuf 0
                (((write_at buf (needle.length - 1) (f.take bufsize)).take
                  (needle.length - 1 + (f.take bufsize).length)).map tolower))
              (needle.length - 1 + (f.take bufsize).length - (needle.length - 1))
              (needle.length - 1)) with
        | none =>
          rw [hrec] at h
          simp at h
        | some r' =>
          rw [hrec] at h
          simp only [Option.map_some', Option.some.injEq] at h
          subst h
          obtain ⟨e1, e2⟩ := ih _ _ _ r' hrec
          have hb : bufsize ≤ f.length := by omega
          have hdiv : (f.length - bufsize) / bufsize + 1 = f.length / bufsize := by
            have h3 : f.length = (f.length - bufsize) + bufsize := by omega
            conv_rhs => rw [h3]
            rw [Nat.add_div_right _ (by omega)]
          simp only [List.length_drop] at e1 e2
          refine ⟨?_, fun hf => ?_⟩
          · simp only [List.length_cons]
            omega
          · obtain ⟨e3, e4⟩ := e2 hf
            simp only [List.sum_cons]
            constructor
            · omega
            · show (search _ needle _).2 + r'.compares = f.length
              omega
      · next hcont =>
        simp only [Option.some.injEq] at h
        subst h
        refine ⟨by simp, fun hf => ?_⟩
        have hf0 : (search (write_at lbuf 0
            (((write_at buf (needle.length - 1) (f.take bufsize)).take
              (needle.length - 1 + (f.take bufsize).length)).map tolower)) needle
            (needle.length - 1 + (f.take bufsize).length)).1 = 0 := hf
        have hs2 := search_snd_of_miss _ _ _ hf0
        have hshort : (f.take bufsize).length ≠ bufsize := fun e => hcont ⟨hf0, e⟩
        simp only [List.sum_cons, List.sum_nil]
        constructor
        · omega
        · show (search _ needle _).2 = f.length
          omega

/-- The state in which the loop of `file_contains_string` starts. -/
theorem trace_spec (c : Nat) (m1 m2 : Option (Nat → Nat)) (f : Option (List Nat))
    (N : List Nat) (k : Nat) (it : ScanIter)
    (h : (file_contains_string_trace c m1 m2 f N)[k]? = some it) :
    ∃ F, f = some F ∧ N ≠ [] ∧ k * c ≤ F.length ∧
      IterOK c N ((List.replicate (N.length - 1) 0 ++ F.take (k * c)).drop (k * c))
        (F.drop (k * c)) it ∧
      ∀ j, j < k → ∃ it', (file_contains_string_trace c m1 m2 f N)[j]? = some it' ∧
        it'.slide = true := by
  cases f with
  | none => simp [file_contains_string_trace] at h
  | some F =>
    by_cases hN : N = []
    · subst hN
      simp [file_contains_string_trace] at h
    · have hlen : N.length ≠ 0 := fun e => hN (List.length_eq_zero.mp e)
      cases m1 with
      | none => simp [file_contains_string_trace, malloc, hlen] at h
      | some g1 =>
        cases m2 with
        | none => simp [file_contains_string_trace, malloc, hlen] at h
        | some g2 =>
          have htr : file_contains_string_trace c (some g1) (some g2) (some F) N =
              scan_trace c N (F.length + 1) F
                (memset_zero ((List.range (c + N.length)).map g1) (N.length - 1))
                (memset_zero ((List.range (c + N.length)).map g2) (N.length - 1)) := by
            simp [file_contains_string_trace, malloc, hlen]
          have hbuf : N.length - 1 ≤
              (memset_zero ((List.range (c + N.length)).map g1) (N.length - 1)).length := by
            simp [memset_zero, write_at]
          have htake : (memset_zero ((List.range (c + N.length)).map g1)
              (N.length - 1)).take (N.length - 1) = List.replicate (N.length - 1) 0 := by
            simp [memset_zero, write_at, List.take_append_of_le_length]
          rw [htr] at h ⊢
          obtain ⟨h1, h2, h3⟩ := scan_trace_spec c N hN _ _ _ _ hbuf k it h
          rw [htake] at h2
          exact ⟨F, rfl, hN, h1, h2, h3⟩

/-- The result of `file_contains_string` read off the record of the
iterations of its loop. -/
theorem run_trace (c : Nat) (g1 g2 : Nat → Nat) (F N : List Nat) (hN : N ≠ [])
    (r : ScanResult)
    (h : file_contains_string_run c (some g1) (some g2) (some F) N = some r) :
    r.reads = (file_contains_string_trace c (some g1) (some g2) (some F) N).map ScanIter.n ∧
      r.compares =
        ((file_contains_string_trace c (some g1) (some g2) (some F) N).map
          ScanIter.compares).sum := by
  have hlen : N.length ≠ 0 := fun e => hN (List.length_eq_zero.mp e)
  simp only [file_contains_string_run, malloc, Option.map_some', hlen, if_false] at h
  simp only [file_contains_string_trace, malloc, Option.map_some', hlen, if_false]
  obtain ⟨e1, e2, _⟩ := scan_loop_trace c N _ _ _ _ r h
  exact ⟨e1, e2⟩

theorem run_counts (c : Nat) (g1 g2 : Nat → Nat) (F N : List Nat) (hc : 1 ≤ c)
    (hN : N ≠ []) (r : ScanResult)
    (h : file_contains_string_run c (some g1) (some g2) (some F) N = some r) :
    r.reads.length ≤ F.length / c + 1 ∧
      (r.found = 0 → r.reads.sum = F.length ∧ r.compares = F.length) := by
  have hlen : N.length ≠ 0 := fun e => hN (List.length_eq_zero.mp e)
  simp only [file_contains_string_run, malloc, Option.map_some', hlen, if_false] at h
  exact scan_loop_counts c N hc hN _ _ _ _ r h

/-- The raw window of an iteration is a segment of the padded file. -/
theorem window_segment (c : Nat) (N P F : List Nat) (k : Nat) (it : ScanIter)
    (hP : P.length = N.length - 1) (hk : k * c ≤ F.length)
    (hok : IterOK c N ((P ++ F.take (k * c)).drop (k * c)) (F.drop (k * c)) it) :
    it.window = ((P ++ F).drop (k * c)).take (N.length - 1 + it.n) := by
  have hsplit : (P ++ F).drop (k * c) =
      (P ++ F.take (k * c)).drop (k * c) ++ F.drop (k * c) := by
    have h1 : P ++ F = (P ++ F.take (k * c)) ++ F.drop (k * c) := by
      rw [List.append_assoc, List.take_append_drop]
    conv_lhs => rw [h1]
    rw [List.drop_append_of_le_length]
    simp only [List.length_append, List.length_take]
    omega
  have hhead : ((P ++ F.take (k * c)).drop (k * c)).length = N.length - 1 := by
    simp only [List.length_drop, List.length_append, List.length_take]
    omega
  rw [hok.window_eq, hsplit, ← hhead, List.take_append, hok.n_eq]
  congr 1
  rw [← List.take_take, List.take_length]

/-! ## Claims on the window and on the work done by the scan -/

/-- C13 fails as stated: with the needle `abc` and the file `ab` the single
read gives the window `0 0 a b` of `total = 4 >= 3` bytes, and the inner loop
compares the needle with it twice before the function returns 0. -/
theorem longer_needle_compared_counterexample :
    (bytes "ab").length < (bytes "abc").length ∧ 0 ∉ bytes "abc" ∧
      file_contains_string_run 65536 (some fun _ => 7) (some fun _ => 9)
        (some (bytes "ab")) (bytes "abc") = some ⟨0, [2], 2⟩ ∧
      file_contains_string_trace 65536 (some fun _ => 7) (some fun _ => 9)
        (some (bytes "ab")) (bytes "abc") =
        [⟨[0, 0], 2, [0, 0, 97, 98], 0, 2, false⟩] := by
  decide

/-- C13, as the code has it. When the NUL-free needle is longer than the
file, a read of `n` bytes gives a window of `total = len(needle) - 1 + n`
bytes, which is at least `len(needle)` as soon as a byte is read; the inner
loop then compares the needle with `n` positions of the zero-padded window
and finds nothing. Over the whole scan every byte of the file is read once,
`len(F)` comparisons are made and the function returns 0. -/
theorem longer_needle_compares (c : Nat) (g1 g2 : Nat → Nat) (F N : List Nat)
    (hc : 1 ≤ c) (h0 : 0 ∉ N) (hlen : F.length < N.length) :
    (∃ reads, file_contains_string_run c (some g1) (some g2) (some F) N =
        some ⟨0, reads, F.length⟩ ∧ reads.sum = F.length) ∧
      ∀ it ∈ file_contains_string_trace c (some g1) (some g2) (some F) N,
        it.hit = 0 ∧ it.compares = it.n ∧ it.window.length = N.length - 1 + it.n ∧
          (it.n ≠ 0 → N.length ≤ it.window.length) := by
  have hN : N ≠ [] := by
    intro h
    rw [h] at hlen
    simp at hlen
  have hno : ¬ N <:+: F.map tolower := not_occurs_of_short (by simpa using hlen)
  have hpad : ¬ N <:+: List.replicate (N.length - 1) 0 ++ F.map tolower := by
    rw [occurs_zero_pad N _ _ hN h0]
    exact hno
  obtain ⟨r, hr, hr01, hriff⟩ := run_spec c g1 g2 F N hc hN
  have hfound : r.found = 0 := by
    rcases hr01 with h | h
    · exact h
    · exact absurd (hriff.mp h) hpad
  obtain ⟨_, hcount⟩ := run_counts c g1 g2 F N hc hN r hr
  obtain ⟨hsum, hcmp⟩ := hcount hfound
  constructor
  · refine ⟨r.reads, ?_, hsum⟩
    rw [hr]
    cases r
    simp only at hfound hcmp
    simp [hfound, hcmp]
  · intro it hit
    obtain ⟨k, hk⟩ := List.getElem?_of_mem hit
    obtain ⟨F', hF', _, hkc, hok, _⟩ := trace_spec c _ _ _ N k it hk
    simp only [Option.some.injEq] at hF'
    subst hF'
    have hP : (List.replicate (N.length - 1) 0).length = N.length - 1 := by simp
    have hwin := window_segment c N _ F k it hP hkc hok
    have hsub : it.window <:+: List.replicate (N.length - 1) 0 ++ F := by
      rw [hwin]
      exact (List.take_prefix _ _).isInfix.trans (List.drop_suffix _ _).isInfix
    have hhit : it.hit = 0 := by
      rcases hok.hit_cases with h | h
      · exact h
      · exfalso
        apply hpad
        have h1 := hok.hit_iff.mp h
        have h2 : it.window.map tolower <:+:
            (List.replicate (N.length - 1) 0 ++ F).map tolower := hsub.map tolower
        have hz : (List.replicate (N.length - 1) 0).map tolower =
            List.replicate (N.length - 1) 0 := by simp [tolower]
        rw [List.map_append, hz] at h2
        exact h1.trans h2
    have hwlen : it.window.length = N.length - 1 + it.n := by
      rw [hok.window_eq, hok.n_eq]
      simp only [List.length_append, List.length_drop, List.length_take,
        List.length_replicate]
      omega
    have hpos : 0 < N.length := List.length_pos.mpr hN
    exact ⟨hhit, hok.compares_miss hhit, hwlen, fun hn => by omega⟩

/-- Witness of C13 as amended: the needle `abcd`, the file `abc`, chunks of 2
bytes. -/
theorem longer_needle_compares_witness :
    1 ≤ 2 ∧ 0 ∉ bytes "abcd" ∧ (bytes "abc").length < (bytes "abcd").length ∧
      ((∃ reads, file_contains_string_run 2 (some fun _ => 7) (some fun _ => 9)
          (some (bytes "abc")) (bytes "abcd") = some ⟨0, reads, (bytes "abc").length⟩ ∧
          reads.sum = (bytes "abc").length) ∧
        ∀ it ∈ file_contains_string_trace 2 (some fun _ => 7) (some fun _ => 9)
            (some (bytes "abc")) (bytes "abcd"),
          it.hit = 0 ∧ it.compares = it.n ∧
            it.window.length = (bytes "abcd").length - 1 + it.n ∧
            (it.n ≠ 0 → (bytes "abcd").length ≤ it.window.length)) ∧
      file_contains_string_run 2 (some fun _ => 7) (some fun _ => 9)
        (some (bytes "abc")) (bytes "abcd") = some ⟨0, [2, 1], 3⟩ :=
  ⟨by decide, by decide, by decide,
    longer_needle_compares 2 (fun _ => 7) (fun _ => 9) (bytes "abc") (bytes "abcd")
      (by decide) (by decide) (by decide),
    by decide⟩

/-- C14 (scan-window invariant). In the `k`-th iteration of the scan loop
(`k` counted from 0, so after `k` full reads without a match): the first
`overlap = len(needle) - 1` bytes of the raw buffer at the time of the read
are the last `overlap` bytes of the zero padding followed by the first
`k * chunk_size` bytes of the file, which is the padding itself for `k = 0`;
the read delivers the next `min(chunk_size, rest)` bytes; the window after
the read is the segment of the padded file that starts at offset
`k * chunk_size` and has `overlap + n` bytes; and every occurrence of the
needle in the lower-cased padded file whose last byte lies in the chunk just
read lies inside the lower-cased window. -/
theorem scan_window_invariant (c : Nat) (m1 m2 : Option (Nat → Nat)) (F N : List Nat)
    (k : Nat) (it : ScanIter)
    (h : (file_contains_string_trace c m1 m2 (some F) N)[k]? = some it) :
    k * c ≤ F.length ∧
      it.head = (List.replicate (N.length - 1) 0 ++ F.take (k * c)).drop (k * c) ∧
      it.head.length = N.length - 1 ∧
      (k = 0 → it.head = List.replicate (N.length - 1) 0) ∧
      (∀ j, j < k →
        ∃ it', (file_contains_string_trace c m1 m2 (some F) N)[j]? = some it' ∧
          it'.n = c ∧ it'.hit = 0) ∧
      it.n = min c (F.length - k * c) ∧
      it.window =
        ((List.replicate (N.length - 1) 0 ++ F).drop (k * c)).take (N.length - 1 + it.n) ∧
      (∀ i, (((List.replicate (N.length - 1) 0 ++ F).map tolower).drop i).take N.length = N →
        N.length - 1 + k * c < i + N.length →
        i + N.length ≤ N.length - 1 + k * c + it.n →
        k * c ≤ i ∧ ((it.window.map tolower).drop (i - k * c)).take N.length = N) := by
  obtain ⟨F', hF', hN, hkc, hok, hprev⟩ := trace_spec c _ _ _ N k it h
  simp only [Option.some.injEq] at hF'
  subst hF'
  have hpos : 0 < N.length := List.length_pos.mpr hN
  have hP : (List.replicate (N.length - 1) 0).length = N.length - 1 := by simp
  have hwin := window_segment c N _ F k it hP hkc hok
  refine ⟨hkc, hok.head_eq, ?_, ?_, ?_, ?_, hwin, ?_⟩
  · rw [hok.head_eq]
    simp only [List.length_drop, List.length_append, List.length_take,
      List.length_replicate]
    omega
  · intro hk0
    rw [hok.head_eq, hk0]
    simp
  · intro j hj
    obtain ⟨it', hj1, hj2⟩ := hprev j hj
    obtain ⟨_, _, _, _, hok', _⟩ := trace_spec c _ _ _ N j it' hj1
    obtain ⟨hh, hn, _⟩ := hok'.slide_iff.mp hj2
    exact ⟨it', hj1, hn, hh⟩
  · rw [hok.n_eq]
    simp only [List.length_drop]
  · intro i hocc hlo hhi
    have hki : k * c ≤ i := by omega
    refine ⟨hki, ?_⟩
    rw [hwin, List.map_take, List.map_drop, List.drop_take, List.take_take, List.drop_drop,
      show k * c + (i - k * c) = i by omega,
      show min N.length (N.length - 1 + it.n - (i - k * c)) = N.length by omega]
    exact hocc

/-- Witness of C14: the second iteration (`k = 1`) for the file `HTB{a`, the
needle `tb{` and chunks of 3 bytes. -/
theorem scan_window_invariant_witness :
    (file_contains_string_trace 3 (some fun _ => 7) (some fun _ => 9)
        (some (bytes "HTB\x7ba")) (bytes "tb\x7b"))[1]? =
        some ⟨bytes "TB", 2, bytes "TB\x7ba", 1, 1, false⟩ ∧
      (1 * 3 ≤ (bytes "HTB\x7ba").length ∧
        (⟨bytes "TB", 2, bytes "TB\x7ba", 1, 1, false⟩ : ScanIter).head =
          (List.replicate ((bytes "tb\x7b").length - 1) 0 ++
            (bytes "HTB\x7ba").take (1 * 3)).drop (1 * 3) ∧
        (⟨bytes "TB", 2, bytes "TB\x7ba", 1, 1, false⟩ : ScanIter).head.length =
          (bytes "tb\x7b").length - 1 ∧
        (1 = 0 → (⟨bytes "TB", 2, bytes "TB\x7ba", 1, 1, false⟩ : ScanIter).head =
          List.replicate ((bytes "tb\x7b").length - 1) 0) ∧
        (∀ j, j < 1 →
          ∃ it', (file_contains_string_trace 3 (some fun _ => 7) (some fun _ => 9)
              (some (bytes "HTB\x7ba")) (bytes "tb\x7b"))[j]? = some it' ∧
            it'.n = 3 ∧ it'.hit = 0) ∧
        (⟨bytes "TB", 2, bytes "TB\x7ba", 1, 1, false⟩ : ScanIter).n =
          min 3 ((bytes "HTB\x7ba").length - 1 * 3) ∧
        (⟨bytes "TB", 2, bytes "TB\x7ba", 1, 1, false⟩ : ScanIter).window =
          ((List.replicate ((bytes "tb\x7b").length - 1) 0 ++ bytes "HTB\x7ba").drop
            (1 * 3)).take ((bytes "tb\x7b").length - 1 +
              (⟨bytes "TB", 2, bytes "TB\x7ba", 1, 1, false⟩ : ScanIter).n) ∧
        (∀ i, (((List.replicate ((bytes "tb\x7b").length - 1) 0 ++
              bytes "HTB\x7ba").map tolower).drop i).take (bytes "tb\x7b").length =
            bytes "tb\x7b" →
          (bytes "tb\x7b").length - 1 + 1 * 3 < i + (bytes "tb\x7b").length →
          i + (bytes "tb\x7b").length ≤ (bytes "tb\x7b").length - 1 + 1 * 3 +
            (⟨bytes "TB", 2, bytes "TB\x7ba", 1, 1, false⟩ : ScanIter).n →
          1 * 3 ≤ i ∧
            (((⟨bytes "TB", 2, bytes "TB\x7ba", 1, 1, false⟩ : ScanIter).window.map
              tolower).drop (i - 1 * 3)).take (bytes "tb\x7b").length = bytes "tb\x7b")) :=
  ⟨by decide,
    scan_window_invariant 3 (some fun _ => 7) (some fun _ => 9) (bytes "HTB\x7ba")
      (bytes "tb\x7b") 1
      ⟨bytes "TB", 2, bytes "TB\x7ba", 1, 1, false⟩ (by decide)⟩

theorem size_sub_one (width nlen : Nat) (h1 : 1 ≤ nlen) (h2 : nlen ≤ 2 ^ width) :
    size_sub width nlen 1 = nlen - 1 := by
  unfold size_sub
  have h3 : nlen + 2 ^ width - 1 = (nlen - 1) + 2 ^ width := by omega
  rw [h3, Nat.add_mod_right, Nat.mod_eq_of_lt (by omega)]

/-- The buffer accesses of one iteration, one by one. -/
theorem mem_iter_accesses (bufsize nlen : Nat) (it : ScanIter) (a : Access)
    (h : a ∈ iter_accesses bufsize nlen it) :
    a = Access.bytes (nlen - 1) bufsize ∨
      (it.n ≠ 0 ∧
        (a = Access.bytes 0 (nlen - 1 + it.n) ∨
          (∃ j, j < it.compares ∧ a = Access.bytes j nlen) ∨
          (it.slide = true ∧
            (a = Access.bytes (nlen - 1 + it.n - (nlen - 1)) (nlen - 1) ∨
              a = Access.bytes 0 (nlen - 1))))) := by
  simp only [iter_accesses] at h
  rcases List.mem_cons.mp h with h | h
  · exact Or.inl h
  · right
    by_cases hn : it.n = 0
    · rw [if_pos hn] at h
      cases h
    · rw [if_neg hn] at h
      refine ⟨hn, ?_⟩
      rcases List.mem_append.mp h with h | h
      · rcases List.mem_append.mp h with h | h
        · left
          simp only [List.mem_cons, List.not_mem_nil, or_false, or_self] at h
          exact h
        · right
          left
          obtain ⟨j, hj, hja⟩ := List.mem_map.mp h
          exact ⟨j, List.mem_range.mp hj, hja.symm⟩
      · right
        right
        by_cases hs : it.slide = true
        · rw [if_pos hs] at h
          refine ⟨hs, ?_⟩
          simp only [List.mem_cons, List.not_mem_nil, or_false] at h
          rcases h with h | h | h | h
          · exact Or.inl h
          · exact Or.inr h
          · exact Or.inl h
          · exact Or.inr h
        · rw [if_neg hs] at h
          cases h

theorem iter_accesses_bound (c : Nat) (N P f : List Nat) (it : ScanIter)
    (hok : IterOK c N P f it) (start len : Nat)
    (ha : Access.bytes start len ∈ iter_accesses c N.length it) (i : Nat)
    (h2 : i < start + len) : i < c + (N.length - 1) := by
  have hn : it.n ≤ c := by
    rw [hok.n_eq]
    omega
  rcases mem_iter_accesses _ _ _ _ ha with h | ⟨_, h | ⟨j, hj, h⟩ | ⟨_, h | h⟩⟩
  · simp only [Access.bytes.injEq] at h
    omega
  · simp only [Access.bytes.injEq] at h
    omega
  · simp only [Access.bytes.injEq] at h
    have := hok.compares_bound j hj
    omega
  · simp only [Access.bytes.injEq] at h
    omega
  · simp only [Access.bytes.injEq] at h
    omega

/-- The accesses of a call whose loop is entered. -/
theorem mem_accesses (c : Nat) (m1 m2 : Option (Nat → Nat)) (f : Option (List Nat))
    (N : List Nat) (a : Access) (h : a ∈ file_contains_string_accesses c m1 m2 f N) :
    N.length ≠ 0 ∧
      (a = Access.overlap_sub N.length ∨ a = Access.bytes 0 (N.length - 1) ∨
        ∃ it ∈ file_contains_string_trace c m1 m2 f N, a ∈ iter_accesses c N.length it) := by
  cases f with
  | none => simp [file_contains_string_accesses] at h
  | some F =>
    by_cases hN : N.length = 0
    · simp [file_contains_string_accesses, hN] at h
    · refine ⟨hN, ?_⟩
      simp only [file_contains_string_accesses, hN, if_false] at h
      rcases List.mem_cons.mp h with h | h
      · exact Or.inl h
      · right
        split at h
        · rcases List.mem_append.mp h with h | h
          · left
            simp only [List.mem_cons, List.not_mem_nil, or_false, or_self] at h
            exact h
          · right
            obtain ⟨it, hit, ha⟩ := List.mem_flatMap.mp h
            exact ⟨it, hit, ha⟩
        · cases h

/-- C18 (window safety). In `file_contains_string` the subtraction
`nlen - 1` is evaluated only with `nlen = len(needle) >= 1`, where the
`size_t` subtraction does not wrap around and gives 0 for a needle of one
byte; with an empty needle the function touches no buffer and evaluates no
subtraction. Every index of a window buffer that `memset`, `fread`, the
folding loop, `memcmp` or `memmove` reads or writes is smaller than
`chunk_size + overlap`. -/
theorem window_accesses_in_bounds (c : Nat) (m1 m2 : Option (Nat → Nat))
    (f : Option (List Nat)) (N : List Nat) :
    (∀ nlen, Access.overlap_sub nlen ∈ file_contains_string_accesses c m1 m2 f N →
        nlen = N.length ∧ 1 ≤ nlen ∧
          ∀ width, nlen ≤ 2 ^ width → size_sub width nlen 1 = nlen - 1) ∧
      (N.length = 1 → ∀ width, size_sub width N.length 1 = 0) ∧
      (∀ start len, Access.bytes start len ∈ file_contains_string_accesses c m1 m2 f N →
        ∀ i, start ≤ i → i < start + len → i < c + (N.length - 1)) ∧
      (N = [] → file_contains_string_accesses c m1 m2 f N = [] ∧
        file_contains_string_trace c m1 m2 f N = []) := by
  refine ⟨?_, ?_, ?_, ?_⟩
  · intro nlen h
    obtain ⟨hN, hcase⟩ := mem_accesses c m1 m2 f N _ h
    have hsub : nlen = N.length := by
      rcases hcase with h1 | h1 | ⟨it, _, h1⟩
      · simp only [Access.overlap_sub.injEq] at h1
        exact h1
      · cases h1
      · rcases mem_iter_accesses _ _ _ _ h1 with h2 | ⟨_, h2 | ⟨j, _, h2⟩ | ⟨_, h2 | h2⟩⟩ <;>
          cases h2
    subst hsub
    exact ⟨rfl, by omega, fun width hw => size_sub_one width _ (by omega) hw⟩
  · intro h1 width
    rw [h1]
    unfold size_sub
    simp
  · intro start len h i hlo hhi
    obtain ⟨hN, hcase⟩ := mem_accesses c m1 m2 f N _ h
    rcases hcase with h1 | h1 | ⟨it, hit, h1⟩
    · cases h1
    · simp only [Access.bytes.injEq] at h1
      omega
    · obtain ⟨k, hk⟩ := List.getElem?_of_mem hit
      obtain ⟨_, _, _, _, hok, _⟩ := trace_spec c _ _ _ N k it hk
      exact iter_accesses_bound c N _ _ it hok start len h1 i hhi
  · intro hN
    subst hN
    cases f <;> simp [file_contains_string_accesses, file_contains_string_trace]

/-- Witness of C18: the accesses of the scan of `HTB{a` for `tb{` with chunks
of 3 bytes stay below index 5, and the subtraction that the guard avoids would
wrap around. -/
theorem window_accesses_in_bounds_witness :
    Access.bytes 0 5 ∈ file_contains_string_accesses 3 (some fun _ => 7) (some fun _ => 9)
        (some (bytes "HTB\x7ba")) (bytes "tb\x7b") ∧
      (∀ i, 0 ≤ i → i < 0 + 5 → i < 3 + ((bytes "tb\x7b").length - 1)) ∧
      Access.overlap_sub 3 ∈ file_contains_string_accesses 3 (some fun _ => 7)
        (some fun _ => 9) (some (bytes "HTB\x7ba")) (bytes "tb\x7b") ∧
      size_sub 64 3 1 = 2 ∧ size_sub 64 1 1 = 0 ∧ size_sub 64 0 1 = 2 ^ 64 - 1 :=
  ⟨by decide,
    (window_accesses_in_bounds 3 (some fun _ => 7) (some fun _ => 9)
      (some (bytes "HTB\x7ba")) (bytes "tb\x7b")).2.2.1 0 5 (by decide),
    by decide, by decide, by decide, by decide⟩

/-- C20 (termination and number of reads). For every file of `L` bytes, every
chunk size `c >= 1` and every non-empty needle, `file_contains_string`
returns after at most `L / c + 1` calls of `fread`, one per iteration of the
loop; an iteration in which the needle is found, or whose read is shorter
than `c` bytes, is the last one. -/
theorem scan_reads_bounded (c : Nat) (g1 g2 : Nat → Nat) (F N : List Nat)
    (hc : 1 ≤ c) (hN : N ≠ []) :
    ∃ r, file_contains_string_run c (some g1) (some g2) (some F) N = some r ∧
      r.reads.length ≤ F.length / c + 1 ∧
      r.reads = (file_contains_string_trace c (some g1) (some g2) (some F) N).map ScanIter.n ∧
      (∀ k it, (file_contains_string_trace c (some g1) (some g2) (some F) N)[k]? = some it →
        (it.hit = 1 ↔ N <:+: it.window.map tolower) ∧
          (it.hit = 1 ∨ it.n < c →
            k + 1 = (file_contains_string_trace c (some g1) (some g2) (some F) N).length)) := by
  obtain ⟨r, hr, _, _⟩ := run_spec c g1 g2 F N hc hN
  obtain ⟨hlen, _⟩ := run_counts c g1 g2 F N hc hN r hr
  obtain ⟨hreads, _⟩ := run_trace c g1 g2 F N hN r hr
  refine ⟨r, hr, hlen, hreads, ?_⟩
  intro k it hk
  obtain ⟨_, _, _, _, hok, _⟩ := trace_spec c _ _ _ N k it hk
  refine ⟨hok.hit_iff, ?_⟩
  intro hstop
  have hklt : k < (file_contains_string_trace c (some g1) (some g2) (some F) N).length := by
    by_contra hge
    rw [List.getElem?_eq_none (by omega)] at hk
    cases hk
  by_contra hne
  have hlt : k + 1 < (file_contains_string_trace c (some g1) (some g2) (some F) N).length := by
    omega
  have hnext : (file_contains_string_trace c (some g1) (some g2) (some F) N)[k + 1]? =
      some ((file_contains_string_trace c (some g1) (some g2) (some F) N)[k + 1]) :=
    List.getElem?_eq_getElem hlt
  obtain ⟨_, _, _, _, _, hprev⟩ := trace_spec c _ _ _ N (k + 1) _ hnext
  obtain ⟨it', h1, h2⟩ := hprev k (by omega)
  rw [hk] at h1
  simp only [Option.some.injEq] at h1
  subst h1
  obtain ⟨hh, hn, _⟩ := hok.slide_iff.mp h2
  omega

/-- Witness of C20: five bytes in chunks of three take two reads, the second
of which finds the needle. -/
theorem scan_reads_bounded_witness :
    1 ≤ 3 ∧ bytes "tb\x7b" ≠ [] ∧
      (∃ r, file_contains_string_run 3 (some fun _ => 7) (some fun _ => 9)
          (some (bytes "HTB\x7ba")) (bytes "tb\x7b") = some r ∧
        r.reads.length ≤ (bytes "HTB\x7ba").length / 3 + 1 ∧
        r.reads = (file_contains_string_trace 3 (some fun _ => 7) (some fun _ => 9)
          (some (bytes "HTB\x7ba")) (bytes "tb\x7b")).map ScanIter.n ∧
        (∀ k it, (file_contains_string_trace 3 (some fun _ => 7) (some fun _ => 9)
            (some (bytes "HTB\x7ba")) (bytes "tb\x7b"))[k]? = some it →
          (it.hit = 1 ↔ bytes "tb\x7b" <:+: it.window.map tolower) ∧
            (it.hit = 1 ∨ it.n < 3 →
              k + 1 = (file_contains_string_trace 3 (some fun _ => 7) (some fun _ => 9)
                (some (bytes "HTB\x7ba")) (bytes "tb\x7b")).length))) ∧
      file_contains_string_run 3 (some fun _ => 7) (some fun _ => 9)
        (some (bytes "HTB\x7ba")) (bytes "tb\x7b") = some ⟨1, [3, 2], 4⟩ :=
  ⟨by decide, by decide,
    scan_reads_bounded 3 (fun _ => 7) (fun _ => 9) (bytes "HTB\x7ba") (bytes "tb\x7b")
      (by decide) (by decide),
    by decide⟩

/-! ## Claims on the program -/

/-- A directory whose path fills the path buffer: `build_path` returns the
directory itself for every entry, and `walk` never returns from it. -/
theorem walk_never_ends_on_full_path (w : World) (needle D : List Nat)
    (entries : List (List Nat)) (name : List Nat) (hlen : D.length = MAX_PATH_LEN - 1)
    (ho : w.opendir D = some entries) (hl : w.lstat D = some FileType.directory)
    (hm : name ∈ entries) (hdot : ¬ (name = bytes "." ∨ name = bytes "..")) :
    ∀ fuel, (walk w needle fuel D).done = false := by
  have hbp : ∀ n : List Nat, build_path D n = D := by
    intro n
    unfold build_path
    rw [← hlen, List.take_append_of_le_length (le_refl _), List.take_length]
  have hentries : ∀ (recurse : List Nat → Run), (recurse D).done = false →
      ∀ rest : List (List Nat), name ∈ rest →
        (walk_entries w needle recurse D rest).done = false := by
    intro recurse hrec rest
    induction rest with
    | nil => intro h; cases h
    | cons a rest ih =>
      intro hmem
      rw [walk_entries]
      split
      · next hadot =>
        rcases List.mem_cons.mp hmem with rfl | h
        · exact absurd hadot hdot
        · exact ih h
      · simp only [hbp, hl]
        unfold Run.andThen
        rw [if_neg (by simp [hrec])]
        exact hrec
  intro fuel
  induction fuel with
  | zero => rfl
  | succ fuel ih =>
    rw [walk, ho]
    exact hentries _ ih entries hm

end CtfHunter
